import Mathlib

/-!
Shallow embedding of the parser in `vagrant.py` (`Walker` + the parsimonious
grammar inside `get_host_dicts`).

The grammar (vagrant.py, lines 112-133):

  output         = block+
  block          = newline* first_line line+ last_line?
  line           = port_line / arbitrary_line
  first_line     = key             whitespace1 hostname    newline
  port_line      = whitespace2 key whitespace1 port_number newline
  arbitrary_line = whitespace2 key whitespace1 value       newline
  last_line      = whitespace2 key whitespace1 value
  key            = [A-z]+
  value          = .+
  newline        = \n
  whitespace1    = \s
  whitespace2    = \s\s
  hostname       = [A-z0-9-]+  (case-insensitive flag, redundant for this class)
  port_number    = [0-9]{1,5}

PEG semantics (parsimonious): regex terminals are matched greedily and
atomically at the current position; sequence, ordered choice (first branch
wins), greedy `*`, `+` and `?` with no backtracking into completed matches.
`NodeVisitor.match` calls `Grammar.match`, which matches the default rule
(`output`) against a PREFIX of the input: unconsumed trailing input is not an
error.  A failed match raises `ParseError`, modelled here with `Option.none`.

The `Walker` visitor is fused into the rule functions: each rule function
returns exactly what visiting the corresponding node yields
(`visit_first_line`, `visit_port_line`/`visit_arbitrary_line`,
`visit_last_line`, `visit_port_number`, `visit_block`; `generic_visit`
returns the matched text for regex nodes and the child list otherwise, which
is what the pair/list plumbing below implements).  Repetition is implemented
with an explicit fuel argument (each iteration consumes at least one
character, so `length + 1` fuel is always enough); this keeps every
definition computable by the kernel.
-/

namespace Vagrant

/-- A Python value stored in a host dictionary: `str`, `int`, or `None`
(`visit_port_number` returns `None` when `int()` raises `ValueError`). -/
inductive Value where
  | str (s : String)
  | int (n : Int)
  | none
deriving DecidableEq

/-- One key/value pair as produced by the line visitors. -/
abbrev Entry := String × Value

/-- A host dictionary: a Python `dict` modelled as an insertion-ordered
association list (later assignment to an existing key overwrites the value
in place, preserving the position of the first occurrence). -/
abbrev HostDict := List Entry

/-- Characters matched by the regex class `[A-z]` (ASCII 65..122: letters
plus `[ \ ] ^ _ ` `). -/
def isKeyChar (c : Char) : Bool := 'A' ≤ c && c ≤ 'z'

/-- Characters matched by the regex class `[A-z0-9-]`. -/
def isHostChar (c : Char) : Bool := ('A' ≤ c && c ≤ 'z') || ('0' ≤ c && c ≤ '9') || c = '-'

/-- Characters matched by the regex `.` (anything but a newline). -/
def isValueChar (c : Char) : Bool := c != '\n'

/-- Characters matched by the regex class `[0-9]`. -/
def isDigitChar (c : Char) : Bool := '0' ≤ c && c ≤ '9'

/-- Characters matched by the Python regex class `\s` (ASCII whitespace;
the non-ASCII Unicode whitespace characters also matched by Python's `\s`
are not modelled — no claim involves them). -/
def isPySpace (c : Char) : Bool :=
  c = ' ' || c = '\t' || c = '\n' || c = '\x0b' || c = '\x0c' || c = '\r'

/-- Greedy, atomic match of a one-or-more character-class regex (`[...]+`):
take the longest run of characters satisfying `p`; fail if it is empty.
Returns the matched text and the remaining input. -/
def takeWhile1 (p : Char → Bool) (cs : List Char) : Option (String × List Char) :=
  let t := cs.takeWhile p
  if t = [] then Option.none else some (String.mk t, cs.dropWhile p)

/-- Terminal `key = ~"[A-z]+"`. -/
def matchKey (cs : List Char) : Option (String × List Char) := takeWhile1 isKeyChar cs

/-- Terminal `hostname = ~"[A-z0-9-]+"i`. -/
def matchHostname (cs : List Char) : Option (String × List Char) := takeWhile1 isHostChar cs

/-- Terminal `value = ~".+"`. -/
def matchValue (cs : List Char) : Option (String × List Char) := takeWhile1 isValueChar cs

/-- Terminal `newline = ~"\n"`. -/
def matchNewline (cs : List Char) : Option (String × List Char) :=
  match cs with
  | c :: rest => if c = '\n' then some ("\n", rest) else Option.none
  | [] => Option.none

/-- Terminal `whitespace1 = ~"\s"`. -/
def matchWhitespace1 (cs : List Char) : Option (String × List Char) :=
  match cs with
  | c :: rest => if isPySpace c then some (String.mk [c], rest) else Option.none
  | [] => Option.none

/-- Terminal `whitespace2 = ~"\s\s"`. -/
def matchWhitespace2 (cs : List Char) : Option (String × List Char) :=
  match cs with
  | c1 :: c2 :: rest =>
      if isPySpace c1 && isPySpace c2 then some (String.mk [c1, c2], rest) else Option.none
  | _ => Option.none

/-- Terminal `port_number = ~"[0-9]{1,5}"`: greedily match up to five
decimal digits, at least one. -/
def matchPortNumber (cs : List Char) : Option (String × List Char) :=
  let t := (cs.takeWhile isDigitChar).take 5
  if t = [] then Option.none else some (String.mk t, cs.drop t.length)

/-- Base-10 value of a digit run (the digits have already been checked). -/
def digitsVal (ds : List Char) : Nat :=
  ds.foldl (fun a c => 10 * a + (c.toNat - 48)) 0

/-- Python `int(s)` restricted to what can reach it here: strip surrounding
whitespace, optional sign, then a non-empty digit run; anything else raises
`ValueError` (modelled as `Option.none`).  (Python's underscore digit
grouping is not modelled — no grammar-matched text contains one.) -/
def pyIntOfDigits (ds : List Char) : Option Nat :=
  if ds ≠ [] ∧ ds.all isDigitChar then some (digitsVal ds) else Option.none

/-- Strip leading and trailing whitespace, as Python `int()` does. -/
def pyStrip (cs : List Char) : List Char :=
  ((cs.dropWhile isPySpace).reverse.dropWhile isPySpace).reverse

/-- Python `int(s)` (see `pyIntOfDigits`). -/
def pyInt (s : String) : Option Int :=
  match pyStrip s.data with
  | [] => Option.none
  | c :: ds =>
      if c = '+' then (pyIntOfDigits ds).map Int.ofNat
      else if c = '-' then (pyIntOfDigits ds).map (fun n => -(n : Int))
      else (pyIntOfDigits (c :: ds)).map Int.ofNat

/-- `Walker.visit_port_number`: coerce the matched text with `int()`.
On `ValueError` the handler logs "Couldn't parse port, removing line" and
falls through, so the method returns Python `None`. -/
def visit_port_number (s : String) : Value :=
  match pyInt s with
  | some n => Value.int n
  | Option.none => Value.none

/-- Python dict assignment `d[k] = v` on the ordered-association-list model:
overwrite in place if the key exists, else append. -/
def updAssoc (d : HostDict) (k : String) (v : Value) : HostDict :=
  match d with
  | [] => [(k, v)]
  | (k', v') :: rest => if k' = k then (k, v) :: rest else (k', v') :: updAssoc rest k v

/-- The dict comprehension in `visit_block`. -/
def dictOfPairs (l : List Entry) : HostDict :=
  l.foldl (fun d e => updAssoc d e.1 e.2) []

/-- `Walker.visit_block`: collect the header pair, the (already flattened)
body-line pairs, and the optional last-line pair, into a dict. -/
def visit_block (first : Entry) (rest : List Entry) (lastl : Option Entry) : HostDict :=
  match lastl with
  | some la => dictOfPairs (first :: (rest ++ [la]))
  | Option.none => dictOfPairs (first :: rest)

/-- Rule `first_line = key whitespace1 hostname newline`, fused with
`Walker.visit_first_line` (returns the (key, hostname) pair). -/
def first_line (cs : List Char) : Option (Entry × List Char) := do
  let (k, cs) ← matchKey cs
  let (_, cs) ← matchWhitespace1 cs
  let (h, cs) ← matchHostname cs
  let (_, cs) ← matchNewline cs
  some ((k, Value.str h), cs)

/-- Rule `port_line = whitespace2 key whitespace1 port_number newline`,
fused with `Walker.visit_port_line` (which delegates to
`visit_arbitrary_line`: the pair of key and the `visit_port_number` result). -/
def port_line (cs : List Char) : Option (Entry × List Char) := do
  let (_, cs) ← matchWhitespace2 cs
  let (k, cs) ← matchKey cs
  let (_, cs) ← matchWhitespace1 cs
  let (p, cs) ← matchPortNumber cs
  let (_, cs) ← matchNewline cs
  some ((k, visit_port_number p), cs)

/-- Rule `arbitrary_line = whitespace2 key whitespace1 value newline`,
fused with `Walker.visit_arbitrary_line`. -/
def arbitrary_line (cs : List Char) : Option (Entry × List Char) := do
  let (_, cs) ← matchWhitespace2 cs
  let (k, cs) ← matchKey cs
  let (_, cs) ← matchWhitespace1 cs
  let (v, cs) ← matchValue cs
  let (_, cs) ← matchNewline cs
  some ((k, Value.str v), cs)

/-- Rule `line = port_line / arbitrary_line` (PEG ordered choice; the
`line` node's visit returns its single child's result). -/
def line (cs : List Char) : Option (Entry × List Char) :=
  match port_line cs with
  | some r => some r
  | Option.none => arbitrary_line cs

/-- Rule `last_line = whitespace2 key whitespace1 value` (no newline),
fused with `Walker.visit_last_line`. -/
def last_line (cs : List Char) : Option (Entry × List Char) := do
  let (_, cs) ← matchWhitespace2 cs
  let (k, cs) ← matchKey cs
  let (_, cs) ← matchWhitespace1 cs
  let (v, cs) ← matchValue cs
  some ((k, Value.str v), cs)

/-- `newline*`: greedily consume leading newlines. -/
def newlineStar (cs : List Char) : List Char := cs.dropWhile (· = '\n')

/-- Greedy `line*` (the tail of `line+`), with explicit fuel. -/
def lineStarF : Nat → List Char → List Entry × List Char
  | 0, cs => ([], cs)
  | Nat.succ fuel, cs =>
      match line cs with
      | Option.none => ([], cs)
      | some (e, cs') =>
          let r := lineStarF fuel cs'
          (e :: r.1, r.2)

/-- Greedy `line*`; a successful `line` consumes at least one character, so
`length + 1` fuel can never run out. -/
def lineStar (cs : List Char) : List Entry × List Char := lineStarF (cs.length + 1) cs

/-- Rule `block = newline* first_line line+ last_line?`, fused with
`Walker.visit_block`.  `line+` is one `line` followed by greedy `line*`;
`last_line?` contributes its pair only when it matches (the
`len(last_line[0]) == 2` test in `visit_block` is presence testing: a
matched last line always reduces to a 2-tuple). -/
def block (cs : List Char) : Option (HostDict × List Char) := do
  let cs0 := newlineStar cs
  let (first, cs1) ← first_line cs0
  let (e1, cs2) ← line cs1
  let (rest, cs3) := lineStar cs2
  match last_line cs3 with
  | some (la, cs4) => some (visit_block first (e1 :: rest) (some la), cs4)
  | Option.none => some (visit_block first (e1 :: rest) Option.none, cs3)

/-- Greedy `block*` (the tail of `block+`), with explicit fuel. -/
def blockStarF : Nat → List Char → List HostDict × List Char
  | 0, cs => ([], cs)
  | Nat.succ fuel, cs =>
      match block cs with
      | Option.none => ([], cs)
      | some (d, cs') =>
          let r := blockStarF fuel cs'
          (d :: r.1, r.2)

/-- Greedy `block*`; a successful `block` consumes at least one character. -/
def blockStar (cs : List Char) : List HostDict × List Char := blockStarF (cs.length + 1) cs

/-- Rule `output = block+` (the default rule): at least one block, then as
many more as match; the visit returns the list of block dicts.  The second
component is the unconsumed remainder of the input. -/
def output (cs : List Char) : Option (List HostDict × List Char) := do
  let (d, cs') ← block cs
  let r := blockStar cs'
  some (d :: r.1, r.2)

/-- `get_host_dicts`: build the grammar, match it against the text with
`NodeVisitor.match` (which uses `Grammar.match`: a PREFIX match — trailing
unmatched input is ignored, only a failure at the start raises
`ParseError`), and walk the tree.  `ParseError` is modelled as
`Option.none`. -/
def get_host_dicts (s : String) : Option (List HostDict) :=
  (output s.data).map Prod.fst

/-! ### Statement-support definitions

Constraint predicates describing text matchable by the grammar's terminals,
renderers that build concrete inputs from key/value data, and the
specification's description of the per-line coercion (`specLineValue`),
which the theorems below compare against the parser. -/

/-- Text matchable by the `key` terminal: a non-empty `[A-z]` run. -/
abbrev ValidKey (k : String) : Prop := k.data ≠ [] ∧ ∀ c ∈ k.data, isKeyChar c

/-- Text matchable by the `hostname` terminal: a non-empty `[A-z0-9-]` run. -/
abbrev ValidHost (h : String) : Prop := h.data ≠ [] ∧ ∀ c ∈ h.data, isHostChar c

/-- Text matchable by the `value` terminal: non-empty and newline-free. -/
abbrev ValidVal (v : String) : Prop := v.data ≠ [] ∧ ∀ c ∈ v.data, c ≠ '\n'

/-- The characters of the header line `k ++ " " ++ h ++ "\n"`. -/
def renderHeaderL (k h : String) : List Char := k.data ++ ' ' :: (h.data ++ ['\n'])

/-- The characters of the body line `"  " ++ k ++ " " ++ v ++ "\n"`. -/
def renderLineL (k v : String) : List Char :=
  ' ' :: ' ' :: (k.data ++ ' ' :: (v.data ++ ['\n']))

/-- The characters of a list of body lines. -/
def renderLinesL (ls : List (String × String)) : List Char :=
  ls.foldr (fun p acc => renderLineL p.1 p.2 ++ acc) []

/-- The characters of the trailer line `"  " ++ k ++ " " ++ v` (no newline). -/
def renderTrailerL (k v : String) : List Char := ' ' :: ' ' :: (k.data ++ ' ' :: v.data)

/-- The field value as the specification describes the coercion: a run of
one to five decimal digits becomes the base-10 integer it denotes, any
other value stays the exact string.  The theorems below prove that the
`line` rule produces exactly this value. -/
def specLineValue (v : String) : Value :=
  if v.data ≠ [] ∧ v.data.all isDigitChar ∧ v.data.length ≤ 5 then
    Value.int (digitsVal v.data)
  else Value.str v

/-- The body lines `"  " ++ k ++ " " ++ v ++ "\n"` as one string. -/
def renderLinesStr (ls : List (String × String)) : String :=
  ls.foldr (fun p acc => "  " ++ p.1 ++ " " ++ p.2 ++ "\n" ++ acc) ""

/-- The values a successful parse can place in a record: integers read from
a one-to-five digit run (hence in `0..99999`) and non-empty strings; the
`None` that `visit_port_number` would produce on a failed coercion never
survives a parse. -/
def ValueOK : Value → Prop
  | Value.str s => s.data ≠ []
  | Value.int n => 0 ≤ n ∧ n < 100000
  | Value.none => False

/-! ### Character-class and string facts -/

theorem string_eta (s : String) : String.mk s.data = s := rfl

theorem ne_of_class {p : Char → Bool} {c k : Char} (h : p c = true) (hk : p k = false) :
    c ≠ k := by
  intro e
  rw [e, hk] at h
  exact Bool.noConfusion h

theorem not_pySpace_of_keyChar {c : Char} (h : isKeyChar c = true) : isPySpace c = false := by
  simp only [isKeyChar, Bool.and_eq_true, decide_eq_true_eq] at h
  simp only [isPySpace, Bool.or_eq_false_iff, decide_eq_false_iff_not]
  refine ⟨⟨⟨⟨⟨?_, ?_⟩, ?_⟩, ?_⟩, ?_⟩, ?_⟩ <;> (rintro rfl; exact absurd h.1 (by decide))

theorem not_digit_of_pySpace {c : Char} (h : isPySpace c = true) : isDigitChar c = false := by
  simp only [isPySpace, Bool.or_eq_true, decide_eq_true_eq] at h
  rcases h with ((((h | h) | h) | h) | h) | h <;> (subst h; decide)

theorem keyChar_ne_newline {c : Char} (h : isKeyChar c = true) : c ≠ '\n' :=
  ne_of_class h (by decide)

theorem hostChar_ne_newline {c : Char} (h : isHostChar c = true) : c ≠ '\n' :=
  ne_of_class h (by decide)

theorem digit_ne_newline {c : Char} (h : isDigitChar c = true) : c ≠ '\n' :=
  ne_of_class h (by decide)

/-! ### takeWhile facts -/

theorem all_takeWhile {p : Char → Bool} :
    ∀ (l : List Char), ∀ c ∈ l.takeWhile p, p c = true
  | [] => by simp
  | a :: l => by
      by_cases h : p a = true
      · simp only [List.takeWhile_cons_of_pos h, List.mem_cons]
        rintro c (rfl | hc)
        · exact h
        · exact all_takeWhile l c hc
      · simp [List.takeWhile_cons_of_neg h]

theorem takeWhile_append_all {p : Char → Bool} :
    ∀ (l rest : List Char), (∀ c ∈ l, p c = true) →
      (∀ c, rest.head? = some c → p c = false) →
      (l ++ rest).takeWhile p = l ∧ (l ++ rest).dropWhile p = rest
  | [], rest, _, hr => by
      cases rest with
      | nil => exact ⟨rfl, rfl⟩
      | cons c cs =>
          have := hr c rfl
          constructor
          · simp [List.takeWhile_cons, this]
          · simp [List.dropWhile_cons, this]
  | a :: l, rest, hall, hr => by
      have hpa : p a = true := hall a (List.mem_cons_self a l)
      have ih := takeWhile_append_all l rest (fun c hc => hall c (List.mem_cons_of_mem _ hc)) hr
      constructor
      · simp [List.takeWhile_cons, hpa, ih.1]
      · simp [List.dropWhile_cons, hpa, ih.2]

theorem takeWhile1_append {p : Char → Bool} {l rest : List Char} (hne : l ≠ [])
    (hall : ∀ c ∈ l, p c = true) (hr : ∀ c, rest.head? = some c → p c = false) :
    takeWhile1 p (l ++ rest) = some (String.mk l, rest) := by
  obtain ⟨h1, h2⟩ := takeWhile_append_all l rest hall hr
  unfold takeWhile1
  simp only [h1, h2]
  rw [if_neg hne]

theorem takeWhile_all {p : Char → Bool} :
    ∀ {l : List Char}, (∀ c ∈ l, p c = true) → l.takeWhile p = l
  | [], _ => rfl
  | a :: l, h => by
      have hpa : p a = true := h a (List.mem_cons_self a l)
      rw [List.takeWhile_cons_of_pos hpa,
        takeWhile_all (fun c hc => h c (List.mem_cons_of_mem _ hc))]

/-! ### Terminal matcher lemmas on constructed input -/

theorem matchKey_append {k : String} {rest : List Char} (hk : ValidKey k)
    (hr : ∀ c, rest.head? = some c → isKeyChar c = false) :
    matchKey (k.data ++ rest) = some (k, rest) := by
  unfold matchKey
  rw [takeWhile1_append hk.1 hk.2 hr]

theorem matchHostname_append {h : String} {rest : List Char} (hh : ValidHost h)
    (hr : ∀ c, rest.head? = some c → isHostChar c = false) :
    matchHostname (h.data ++ rest) = some (h, rest) := by
  unfold matchHostname
  rw [takeWhile1_append hh.1 hh.2 hr]

theorem matchValue_append {v : String} {rest : List Char} (hv : ValidVal v)
    (hr : ∀ c, rest.head? = some c → isValueChar c = false) :
    matchValue (v.data ++ rest) = some (v, rest) := by
  unfold matchValue
  refine takeWhile1_append hv.1 (fun c hc => ?_) hr
  simp [isValueChar, hv.2 c hc]

theorem matchNewline_cons_newline (rest : List Char) :
    matchNewline ('\n' :: rest) = some ("\n", rest) := rfl

theorem matchNewline_cons_ne {c : Char} (h : c ≠ '\n') (rest : List Char) :
    matchNewline (c :: rest) = Option.none := by
  simp [matchNewline, h]

theorem matchWhitespace1_cons {c : Char} (h : isPySpace c = true) (rest : List Char) :
    matchWhitespace1 (c :: rest) = some (String.mk [c], rest) := by
  simp [matchWhitespace1, h]

theorem matchWhitespace2_cons {c1 c2 : Char} (h1 : isPySpace c1 = true)
    (h2 : isPySpace c2 = true) (rest : List Char) :
    matchWhitespace2 (c1 :: c2 :: rest) = some (String.mk [c1, c2], rest) := by
  simp [matchWhitespace2, h1, h2]

theorem matchWhitespace2_cons_ne (c1 : Char) {c2 : Char} (h : isPySpace c2 = false)
    (rest : List Char) :
    matchWhitespace2 (c1 :: c2 :: rest) = Option.none := by
  simp [matchWhitespace2, h]

theorem takeWhile_digits_append {v rest : List Char}
    (hr : ∀ c, rest.head? = some c → isDigitChar c = false) :
    (v ++ rest).takeWhile isDigitChar = v.takeWhile isDigitChar := by
  rw [List.takeWhile_append]
  split
  · rename_i hlen
    have hv : v.takeWhile isDigitChar = v :=
      (List.takeWhile_prefix _).eq_of_length hlen
    have hz : rest.takeWhile isDigitChar = [] := by
      cases rest with
      | nil => rfl
      | cons c cs => simp [List.takeWhile_cons, hr c rfl]
    rw [hz, hv, List.append_nil]
  · rfl

theorem matchPortNumber_digits {v : String} {rest : List Char} (hne : v.data ≠ [])
    (hall : v.data.all isDigitChar = true) (hlen : v.data.length ≤ 5)
    (hr : ∀ c, rest.head? = some c → isDigitChar c = false) :
    matchPortNumber (v.data ++ rest) = some (v, rest) := by
  have htw : (v.data ++ rest).takeWhile isDigitChar = v.data := by
    rw [takeWhile_digits_append hr]
    exact takeWhile_all (by simpa using hall)
  unfold matchPortNumber
  simp only [htw, List.take_of_length_le hlen]
  rw [if_neg hne, List.drop_left]

theorem newline_after_port_fail {v rest : List Char} {s : String} {r : List Char}
    (hvc : ∀ c ∈ v, c ≠ '\n')
    (hnd : ¬(v.all isDigitChar = true ∧ v.length ≤ 5))
    (h : matchPortNumber (v ++ '\n' :: rest) = some (s, r)) :
    matchNewline r = Option.none := by
  have htw : (v ++ '\n' :: rest).takeWhile isDigitChar = v.takeWhile isDigitChar := by
    refine takeWhile_digits_append (fun c hc => ?_)
    simp only [List.head?_cons, Option.some.injEq] at hc
    subst hc; decide
  set t := v.takeWhile isDigitChar with ht
  have hr : r = (v ++ '\n' :: rest).drop (t.take 5).length := by
    unfold matchPortNumber at h
    simp only [← ht, htw] at h
    split at h
    · exact Option.noConfusion h
    · simp only [Option.some.injEq, Prod.mk.injEq] at h
      exact h.2.symm
  have hn5 : (t.take 5).length < v.length := by
    by_cases hall : v.all isDigitChar = true
    · have htv : t = v := takeWhile_all (by simpa using hall)
      have h5 : 5 < v.length := by
        rcases Nat.lt_or_ge 5 v.length with h5 | h5
        · exact h5
        · exact absurd ⟨hall, h5⟩ hnd
      calc (t.take 5).length ≤ 5 := List.length_take_le ..
        _ < v.length := h5
    · have htv : t ≠ v := by
        intro e
        apply hall
        simp only [List.all_eq_true]
        intro c hc
        have hct : c ∈ t := by rw [e]; exact hc
        exact all_takeWhile v c hct
      have htl : t.length < v.length := by
        rcases Nat.lt_or_ge t.length v.length with hlt | hge
        · exact hlt
        · exact absurd ((List.takeWhile_prefix _).eq_of_length_le hge) htv
      calc (t.take 5).length ≤ t.length := List.length_take_le' ..
        _ < v.length := htl
  have hle : (t.take 5).length ≤ v.length := Nat.le_of_lt hn5
  rw [List.drop_append_of_le_length hle] at hr
  have hdne : v.drop (t.take 5).length ≠ [] := by
    intro e
    have := congrArg List.length e
    simp only [List.length_drop, List.length_nil] at this
    omega
  cases hd : v.drop (t.take 5).length with
  | nil => exact absurd hd hdne
  | cons c cs =>
      have hcv : c ∈ v := List.drop_subset _ v (hd ▸ List.mem_cons_self c cs)
      rw [hd] at hr
      rw [hr, List.cons_append]
      exact matchNewline_cons_ne (hvc c hcv) _

/-! ### Python int() on grammar-matched digit runs -/

theorem not_pySpace_of_digit {c : Char} (h : isDigitChar c = true) : isPySpace c = false := by
  cases hp : isPySpace c
  · rfl
  · rw [not_digit_of_pySpace hp] at h
    exact Bool.noConfusion h

theorem dropWhile_all_not {p : Char → Bool} {l : List Char}
    (h : ∀ c ∈ l, p c = false) : l.dropWhile p = l := by
  cases l with
  | nil => rfl
  | cons a l => simp [List.dropWhile_cons, h a (List.mem_cons_self a l)]

theorem pyStrip_digits {ds : List Char} (hall : ∀ c ∈ ds, isDigitChar c = true) :
    pyStrip ds = ds := by
  unfold pyStrip
  rw [dropWhile_all_not (fun c hc => not_pySpace_of_digit (hall c hc)),
    dropWhile_all_not (fun c hc => not_pySpace_of_digit (hall c (List.mem_reverse.mp hc))),
    List.reverse_reverse]

theorem pyInt_digits {ds : List Char} (hne : ds ≠ [])
    (hall : ∀ c ∈ ds, isDigitChar c = true) :
    pyInt (String.mk ds) = some (Int.ofNat (digitsVal ds)) := by
  unfold pyInt
  have hd : (String.mk ds).data = ds := rfl
  rw [hd, pyStrip_digits hall]
  cases ds with
  | nil => exact absurd rfl hne
  | cons c cs =>
      have hc : isDigitChar c = true := hall c (List.mem_cons_self c cs)
      have hcp : c ≠ '+' := ne_of_class hc (by decide)
      have hcm : c ≠ '-' := ne_of_class hc (by decide)
      simp only [if_neg hcp, if_neg hcm, pyIntOfDigits]
      rw [if_pos ⟨List.cons_ne_nil c cs, by simpa [List.all_eq_true] using hall⟩]
      rfl

theorem visit_port_number_digits {v : String} (hne : v.data ≠ [])
    (hall : ∀ c ∈ v.data, isDigitChar c = true) :
    visit_port_number v = Value.int (Int.ofNat (digitsVal v.data)) := by
  have h := pyInt_digits hne hall
  rw [string_eta] at h
  unfold visit_port_number
  rw [h]

/-! ### Consumption: every successful match eats at least one character -/

theorem takeWhile1_consumes {p : Char → Bool} {cs r : List Char} {s : String}
    (h : takeWhile1 p cs = some (s, r)) : r.length < cs.length := by
  simp only [takeWhile1] at h
  split at h
  · exact Option.noConfusion h
  · rename_i hne
    simp only [Option.some.injEq, Prod.mk.injEq] at h
    obtain ⟨-, hr⟩ := h
    subst hr
    conv_rhs => rw [← List.takeWhile_append_dropWhile p cs]
    rw [List.length_append]
    have : 0 < (cs.takeWhile p).length := List.length_pos.mpr hne
    omega

theorem matchKey_consumes {cs r : List Char} {s : String}
    (h : matchKey cs = some (s, r)) : r.length < cs.length := takeWhile1_consumes h

theorem matchHostname_consumes {cs r : List Char} {s : String}
    (h : matchHostname cs = some (s, r)) : r.length < cs.length := takeWhile1_consumes h

theorem matchValue_consumes {cs r : List Char} {s : String}
    (h : matchValue cs = some (s, r)) : r.length < cs.length := takeWhile1_consumes h

theorem matchNewline_consumes {cs r : List Char} {s : String}
    (h : matchNewline cs = some (s, r)) : r.length < cs.length := by
  cases cs with
  | nil => exact Option.noConfusion h
  | cons c cs =>
      simp only [matchNewline] at h
      split at h
      · simp only [Option.some.injEq, Prod.mk.injEq] at h
        obtain ⟨-, rfl⟩ := h
        rw [List.length_cons]
        exact Nat.lt_succ_self _
      · exact Option.noConfusion h

theorem matchWhitespace1_consumes {cs r : List Char} {s : String}
    (h : matchWhitespace1 cs = some (s, r)) : r.length < cs.length := by
  cases cs with
  | nil => exact Option.noConfusion h
  | cons c cs =>
      simp only [matchWhitespace1] at h
      split at h
      · simp only [Option.some.injEq, Prod.mk.injEq] at h
        obtain ⟨-, rfl⟩ := h
        rw [List.length_cons]
        exact Nat.lt_succ_self _
      · exact Option.noConfusion h

theorem matchWhitespace2_consumes {cs r : List Char} {s : String}
    (h : matchWhitespace2 cs = some (s, r)) : r.length < cs.length := by
  cases cs with
  | nil => exact Option.noConfusion h
  | cons c1 cs1 =>
      cases cs1 with
      | nil => exact Option.noConfusion h
      | cons c2 cs2 =>
          simp only [matchWhitespace2] at h
          split at h
          · simp only [Option.some.injEq, Prod.mk.injEq] at h
            obtain ⟨-, rfl⟩ := h
            rw [List.length_cons, List.length_cons]
            omega
          · exact Option.noConfusion h

theorem matchPortNumber_consumes {cs r : List Char} {s : String}
    (h : matchPortNumber cs = some (s, r)) : r.length < cs.length := by
  simp only [matchPortNumber] at h
  split at h
  · exact Option.noConfusion h
  · rename_i hne
    simp only [Option.some.injEq, Prod.mk.injEq] at h
    obtain ⟨-, hr⟩ := h
    subst hr
    have h1 : 0 < ((cs.takeWhile isDigitChar).take 5).length := List.length_pos.mpr hne
    have h2 : ((cs.takeWhile isDigitChar).take 5).length ≤ cs.length := by
      calc ((cs.takeWhile isDigitChar).take 5).length
          ≤ (cs.takeWhile isDigitChar).length := List.length_take_le' ..
        _ ≤ cs.length := (List.takeWhile_prefix _).length_le
    rw [List.length_drop]
    omega

theorem first_line_consumes {cs r : List Char} {e : Entry}
    (h : first_line cs = some (e, r)) : r.length < cs.length := by
  simp only [first_line, Option.bind_eq_bind, Option.bind_eq_some] at h
  obtain ⟨⟨k, cs1⟩, h1, h⟩ := h
  obtain ⟨⟨w1, cs2⟩, h2, h⟩ := h
  obtain ⟨⟨ho, cs3⟩, h3, h⟩ := h
  obtain ⟨⟨nl, cs4⟩, h4, h⟩ := h
  simp only [Option.some.injEq, Prod.mk.injEq] at h
  obtain ⟨-, rfl⟩ := h
  exact Nat.lt_trans
    (Nat.lt_trans (Nat.lt_trans (matchNewline_consumes h4) (matchHostname_consumes h3))
      (matchWhitespace1_consumes h2))
    (matchKey_consumes h1)

theorem port_line_consumes {cs r : List Char} {e : Entry}
    (h : port_line cs = some (e, r)) : r.length < cs.length := by
  simp only [port_line, Option.bind_eq_bind, Option.bind_eq_some] at h
  obtain ⟨⟨w2, cs1⟩, h1, h⟩ := h
  obtain ⟨⟨k, cs2⟩, h2, h⟩ := h
  obtain ⟨⟨w1, cs3⟩, h3, h⟩ := h
  obtain ⟨⟨p, cs4⟩, h4, h⟩ := h
  obtain ⟨⟨nl, cs5⟩, h5, h⟩ := h
  simp only [Option.some.injEq, Prod.mk.injEq] at h
  obtain ⟨-, rfl⟩ := h
  exact Nat.lt_trans (Nat.lt_trans (Nat.lt_trans
    (Nat.lt_trans (matchNewline_consumes h5) (matchPortNumber_consumes h4))
      (matchWhitespace1_consumes h3)) (matchKey_consumes h2))
    (matchWhitespace2_consumes h1)

theorem arbitrary_line_consumes {cs r : List Char} {e : Entry}
    (h : arbitrary_line cs = some (e, r)) : r.length < cs.length := by
  simp only [arbitrary_line, Option.bind_eq_bind, Option.bind_eq_some] at h
  obtain ⟨⟨w2, cs1⟩, h1, h⟩ := h
  obtain ⟨⟨k, cs2⟩, h2, h⟩ := h
  obtain ⟨⟨w1, cs3⟩, h3, h⟩ := h
  obtain ⟨⟨v, cs4⟩, h4, h⟩ := h
  obtain ⟨⟨nl, cs5⟩, h5, h⟩ := h
  simp only [Option.some.injEq, Prod.mk.injEq] at h
  obtain ⟨-, rfl⟩ := h
  exact Nat.lt_trans (Nat.lt_trans (Nat.lt_trans
    (Nat.lt_trans (matchNewline_consumes h5) (matchValue_consumes h4))
      (matchWhitespace1_consumes h3)) (matchKey_consumes h2))
    (matchWhitespace2_consumes h1)

theorem last_line_consumes {cs r : List Char} {e : Entry}
    (h : last_line cs = some (e, r)) : r.length < cs.length := by
  simp only [last_line, Option.bind_eq_bind, Option.bind_eq_some] at h
  obtain ⟨⟨w2, cs1⟩, h1, h⟩ := h
  obtain ⟨⟨k, cs2⟩, h2, h⟩ := h
  obtain ⟨⟨w1, cs3⟩, h3, h⟩ := h
  obtain ⟨⟨v, cs4⟩, h4, h⟩ := h
  simp only [Option.some.injEq, Prod.mk.injEq] at h
  obtain ⟨-, rfl⟩ := h
  exact Nat.lt_trans (Nat.lt_trans (Nat.lt_trans (matchValue_consumes h4)
    (matchWhitespace1_consumes h3)) (matchKey_consumes h2)) (matchWhitespace2_consumes h1)

theorem line_consumes {cs r : List Char} {e : Entry}
    (h : line cs = some (e, r)) : r.length < cs.length := by
  unfold line at h
  split at h
  · rename_i r1 h1
    injection h with h2
    subst h2
    exact port_line_consumes h1
  · exact arbitrary_line_consumes h

/-! ### Unfolding equations for the repetition rules -/

theorem lineStarF_succ (f : Nat) (cs : List Char) :
    lineStarF (f + 1) cs = (match line cs with
      | Option.none => ([], cs)
      | some (e, cs') => (e :: (lineStarF f cs').1, (lineStarF f cs').2)) := rfl

theorem lineStarF_congr : ∀ (f g : Nat) (cs : List Char), cs.length < f → cs.length < g →
    lineStarF f cs = lineStarF g cs
  | 0, _, _, hf, _ => absurd hf (Nat.not_lt_zero _)
  | _ + 1, 0, _, _, hg => absurd hg (Nat.not_lt_zero _)
  | f + 1, g + 1, cs, hf, hg => by
      rw [lineStarF_succ, lineStarF_succ]
      cases h : line cs with
      | none => rfl
      | some ecs =>
          obtain ⟨e, cs'⟩ := ecs
          have hlt := line_consumes h
          dsimp only
          rw [lineStarF_congr f g cs' (by omega) (by omega)]

theorem lineStar_of_none {cs : List Char} (h : line cs = Option.none) :
    lineStar cs = ([], cs) := by
  have e1 : lineStar cs = lineStarF (cs.length + 1) cs := rfl
  rw [e1, lineStarF_succ, h]

theorem lineStar_of_some {cs cs' : List Char} {e : Entry} (h : line cs = some (e, cs')) :
    lineStar cs = (e :: (lineStar cs').1, (lineStar cs').2) := by
  have hlt := line_consumes h
  have e1 : lineStar cs = lineStarF (cs.length + 1) cs := rfl
  rw [e1, lineStarF_succ, h]
  dsimp only
  rw [lineStarF_congr cs.length (cs'.length + 1) cs' (by omega) (by omega)]
  rfl

theorem lineStarF_rest_length : ∀ (f : Nat) (cs : List Char),
    (lineStarF f cs).2.length ≤ cs.length
  | 0, _ => Nat.le_refl _
  | f + 1, cs => by
      simp only [lineStarF]
      cases h : line cs with
      | none => exact Nat.le_refl _
      | some ecs =>
          obtain ⟨e, cs'⟩ := ecs
          have ih := lineStarF_rest_length f cs'
          have hlt := line_consumes h
          show (lineStarF f cs').2.length ≤ cs.length
          omega

theorem lineStar_rest_length (cs : List Char) : (lineStar cs).2.length ≤ cs.length :=
  lineStarF_rest_length _ cs

theorem newlineStar_length (cs : List Char) : (newlineStar cs).length ≤ cs.length := by
  unfold newlineStar
  conv_rhs => rw [← List.takeWhile_append_dropWhile (fun c => c = '\n') cs]
  rw [List.length_append]
  omega

theorem block_consumes {cs r : List Char} {d : HostDict} (h : block cs = some (d, r)) :
    r.length < cs.length := by
  simp only [block, Option.bind_eq_bind, Option.bind_eq_some] at h
  obtain ⟨⟨first, cs1⟩, h1, h⟩ := h
  obtain ⟨⟨e1, cs2⟩, h2, h⟩ := h
  dsimp only at h
  have hns : (newlineStar cs).length ≤ cs.length := newlineStar_length cs
  have h1' : cs1.length < (newlineStar cs).length := first_line_consumes h1
  have h2' : cs2.length < cs1.length := line_consumes h2
  have hls : (lineStar cs2).2.length ≤ cs2.length := lineStar_rest_length cs2
  split at h
  · rename_i la cs4 hlast
    simp only [Option.some.injEq, Prod.mk.injEq] at h
    obtain ⟨-, rfl⟩ := h
    have h4 : cs4.length < (lineStar cs2).2.length := last_line_consumes hlast
    omega
  · simp only [Option.some.injEq, Prod.mk.injEq] at h
    obtain ⟨-, rfl⟩ := h
    omega

theorem blockStarF_succ (f : Nat) (cs : List Char) :
    blockStarF (f + 1) cs = (match block cs with
      | Option.none => ([], cs)
      | some (d, cs') => (d :: (blockStarF f cs').1, (blockStarF f cs').2)) := rfl

theorem blockStarF_congr : ∀ (f g : Nat) (cs : List Char), cs.length < f → cs.length < g →
    blockStarF f cs = blockStarF g cs
  | 0, _, _, hf, _ => absurd hf (Nat.not_lt_zero _)
  | _ + 1, 0, _, _, hg => absurd hg (Nat.not_lt_zero _)
  | f + 1, g + 1, cs, hf, hg => by
      rw [blockStarF_succ, blockStarF_succ]
      cases h : block cs with
      | none => rfl
      | some dcs =>
          obtain ⟨d, cs'⟩ := dcs
          have hlt := block_consumes h
          dsimp only
          rw [blockStarF_congr f g cs' (by omega) (by omega)]

theorem blockStar_of_none {cs : List Char} (h : block cs = Option.none) :
    blockStar cs = ([], cs) := by
  have e1 : blockStar cs = blockStarF (cs.length + 1) cs := rfl
  rw [e1, blockStarF_succ, h]

theorem blockStar_of_some {cs cs' : List Char} {d : HostDict} (h : block cs = some (d, cs')) :
    blockStar cs = (d :: (blockStar cs').1, (blockStar cs').2) := by
  have hlt := block_consumes h
  have e1 : blockStar cs = blockStarF (cs.length + 1) cs := rfl
  rw [e1, blockStarF_succ, h]
  dsimp only
  rw [blockStarF_congr cs.length (cs'.length + 1) cs' (by omega) (by omega)]
  rfl

theorem output_of_block_none {cs : List Char} (h : block cs = Option.none) :
    output cs = Option.none := by
  simp only [output, Option.bind_eq_bind, h, Option.none_bind]

theorem output_single {cs r : List Char} {d : HostDict} (hb : block cs = some (d, r))
    (hr : block r = Option.none) : output cs = some ([d], r) := by
  simp only [output, Option.bind_eq_bind, hb, Option.some_bind, blockStar_of_none hr]

/-! ### The rules on constructed input -/

theorem head_obligation {p : Char → Bool} {c0 : Char} {l : List Char} (h : p c0 = false) :
    ∀ c, (c0 :: l).head? = some c → p c = false := by
  intro c hc
  simp only [List.head?_cons, Option.some.injEq] at hc
  subst hc
  exact h

theorem first_line_rendered {k hst : String} {rest : List Char} (hk : ValidKey k)
    (hh : ValidHost hst) :
    first_line (renderHeaderL k hst ++ rest) = some ((k, Value.str hst), rest) := by
  have e1 : renderHeaderL k hst ++ rest = k.data ++ (' ' :: (hst.data ++ ('\n' :: rest))) := by
    simp [renderHeaderL]
  have hmk : matchKey (k.data ++ (' ' :: (hst.data ++ ('\n' :: rest))))
      = some (k, ' ' :: (hst.data ++ ('\n' :: rest))) :=
    matchKey_append hk (head_obligation (by decide))
  have hw1 : matchWhitespace1 (' ' :: (hst.data ++ ('\n' :: rest)))
      = some (String.mk [' '], hst.data ++ ('\n' :: rest)) :=
    matchWhitespace1_cons (by decide) _
  have hhn : matchHostname (hst.data ++ ('\n' :: rest)) = some (hst, '\n' :: rest) :=
    matchHostname_append hh (head_obligation (by decide))
  rw [e1]
  simp only [first_line, Option.bind_eq_bind, hmk, Option.some_bind, hw1, hhn,
    matchNewline_cons_newline]

theorem line_rendered {k v : String} {rest : List Char} (hk : ValidKey k) (hv : ValidVal v) :
    line (renderLineL k v ++ rest) = some ((k, specLineValue v), rest) := by
  have e1 : renderLineL k v ++ rest
      = ' ' :: ' ' :: (k.data ++ (' ' :: (v.data ++ ('\n' :: rest)))) := by
    simp [renderLineL]
  have hw2 : matchWhitespace2 (' ' :: ' ' :: (k.data ++ (' ' :: (v.data ++ ('\n' :: rest)))))
      = some (String.mk [' ', ' '], k.data ++ (' ' :: (v.data ++ ('\n' :: rest)))) :=
    matchWhitespace2_cons (by decide) (by decide) _
  have hmk : matchKey (k.data ++ (' ' :: (v.data ++ ('\n' :: rest))))
      = some (k, ' ' :: (v.data ++ ('\n' :: rest))) :=
    matchKey_append hk (head_obligation (by decide))
  have hw1 : matchWhitespace1 (' ' :: (v.data ++ ('\n' :: rest)))
      = some (String.mk [' '], v.data ++ ('\n' :: rest)) :=
    matchWhitespace1_cons (by decide) _
  rw [e1]
  by_cases hdig : v.data.all isDigitChar = true ∧ v.data.length ≤ 5
  · have hmp : matchPortNumber (v.data ++ ('\n' :: rest)) = some (v, '\n' :: rest) :=
      matchPortNumber_digits hv.1 hdig.1 hdig.2 (head_obligation (by decide))
    have hvp : visit_port_number v = Value.int (Int.ofNat (digitsVal v.data)) :=
      visit_port_number_digits hv.1 (fun c hc => List.all_eq_true.mp hdig.1 c hc)
    have hspec : specLineValue v = Value.int (digitsVal v.data) := by
      unfold specLineValue
      rw [if_pos ⟨hv.1, hdig.1, hdig.2⟩]
    simp only [line, port_line, Option.bind_eq_bind, hw2, Option.some_bind, hmk, hw1, hmp,
      matchNewline_cons_newline, hvp, hspec]
    rfl
  · have hport : port_line (' ' :: ' ' :: (k.data ++ (' ' :: (v.data ++ ('\n' :: rest)))))
        = Option.none := by
      simp only [port_line, Option.bind_eq_bind, hw2, Option.some_bind, hmk, hw1]
      cases hmp : matchPortNumber (v.data ++ ('\n' :: rest)) with
      | none => rfl
      | some sr =>
          obtain ⟨s, r⟩ := sr
          have hnl := newline_after_port_fail hv.2 hdig hmp
          simp only [Option.some_bind, hnl, Option.none_bind]
    have hmv : matchValue (v.data ++ ('\n' :: rest)) = some (v, '\n' :: rest) :=
      matchValue_append hv (head_obligation (by decide))
    have hspec : specLineValue v = Value.str v := by
      unfold specLineValue
      rw [if_neg (fun hcon => hdig ⟨hcon.2.1, hcon.2.2⟩)]
    simp only [line, hport, arbitrary_line, Option.bind_eq_bind, hw2, Option.some_bind, hmk,
      hw1, hmv, matchNewline_cons_newline, hspec]

theorem line_cons_not_space {c0 c1 : Char} {rest : List Char} (h : isPySpace c1 = false) :
    line (c0 :: c1 :: rest) = Option.none := by
  have hw2 := matchWhitespace2_cons_ne c0 h rest
  simp only [line, port_line, arbitrary_line, Option.bind_eq_bind, hw2, Option.none_bind]

theorem matchNewline_nil : matchNewline [] = Option.none := rfl

theorem matchPortNumber_rest {cs r : List Char} {s : String}
    (h : matchPortNumber cs = some (s, r)) : ∃ n, r = cs.drop n := by
  simp only [matchPortNumber] at h
  split at h
  · exact Option.noConfusion h
  · simp only [Option.some.injEq, Prod.mk.injEq] at h
    exact ⟨_, h.2.symm⟩

theorem matchNewline_of_subset {v r : List Char} (hvc : ∀ c ∈ v, c ≠ '\n')
    (hsub : r ⊆ v) : matchNewline r = Option.none := by
  cases r with
  | nil => rfl
  | cons c cs =>
      exact matchNewline_cons_ne (hvc c (hsub (List.mem_cons_self c cs))) _

theorem line_trailer_none {k v : String} (hk : ValidKey k) (hv : ValidVal v) :
    line (renderTrailerL k v) = Option.none := by
  have e1 : renderTrailerL k v = ' ' :: ' ' :: (k.data ++ (' ' :: v.data)) := by
    simp [renderTrailerL]
  have hw2 : matchWhitespace2 (' ' :: ' ' :: (k.data ++ (' ' :: v.data)))
      = some (String.mk [' ', ' '], k.data ++ (' ' :: v.data)) :=
    matchWhitespace2_cons (by decide) (by decide) _
  have hmk : matchKey (k.data ++ (' ' :: v.data)) = some (k, ' ' :: v.data) :=
    matchKey_append hk (head_obligation (by decide))
  have hw1 : matchWhitespace1 (' ' :: v.data) = some (String.mk [' '], v.data) :=
    matchWhitespace1_cons (by decide) _
  have hmv : matchValue v.data = some (v, []) := by
    have h0 : matchValue (v.data ++ ([] : List Char)) = some (v, []) :=
      matchValue_append hv (fun c hc => by simp at hc)
    rwa [List.append_nil] at h0
  have hport : port_line (' ' :: ' ' :: (k.data ++ (' ' :: v.data))) = Option.none := by
    simp only [port_line, Option.bind_eq_bind, hw2, Option.some_bind, hmk, hw1]
    cases hmp : matchPortNumber v.data with
    | none => rfl
    | some sr =>
        obtain ⟨s, r⟩ := sr
        obtain ⟨n, rfl⟩ := matchPortNumber_rest hmp
        have hnl := matchNewline_of_subset hv.2 (List.drop_subset n v.data)
        simp only [Option.some_bind, hnl, Option.none_bind]
  rw [e1]
  simp only [line, hport, arbitrary_line, Option.bind_eq_bind, hw2, Option.some_bind, hmk,
    hw1, hmv, matchNewline_nil, Option.none_bind]

theorem last_line_rendered {k v : String} (hk : ValidKey k) (hv : ValidVal v) :
    last_line (renderTrailerL k v) = some ((k, Value.str v), []) := by
  have e1 : renderTrailerL k v = ' ' :: ' ' :: (k.data ++ (' ' :: v.data)) := by
    simp [renderTrailerL]
  have hw2 : matchWhitespace2 (' ' :: ' ' :: (k.data ++ (' ' :: v.data)))
      = some (String.mk [' ', ' '], k.data ++ (' ' :: v.data)) :=
    matchWhitespace2_cons (by decide) (by decide) _
  have hmk : matchKey (k.data ++ (' ' :: v.data)) = some (k, ' ' :: v.data) :=
    matchKey_append hk (head_obligation (by decide))
  have hw1 : matchWhitespace1 (' ' :: v.data) = some (String.mk [' '], v.data) :=
    matchWhitespace1_cons (by decide) _
  have hmv : matchValue v.data = some (v, []) := by
    have h0 : matchValue (v.data ++ ([] : List Char)) = some (v, []) :=
      matchValue_append hv (fun c hc => by simp at hc)
    rwa [List.append_nil] at h0
  rw [e1]
  simp only [last_line, Option.bind_eq_bind, hw2, Option.some_bind, hmk, hw1, hmv]

theorem line_nil : line [] = Option.none := rfl

theorem last_line_nil : last_line [] = Option.none := rfl

theorem block_nil : block [] = Option.none := rfl

theorem lineStar_rendered {rest : List Char} (hrest : line rest = Option.none) :
    ∀ (ls : List (String × String)), (∀ p ∈ ls, ValidKey p.1 ∧ ValidVal p.2) →
      lineStar (renderLinesL ls ++ rest)
        = (ls.map (fun p => (p.1, specLineValue p.2)), rest)
  | [], _ => by
      simp only [renderLinesL, List.foldr_nil, List.nil_append, List.map_nil]
      exact lineStar_of_none hrest
  | p :: ls, hall => by
      obtain ⟨k, v⟩ := p
      have hkv := hall (k, v) (List.mem_cons_self (k, v) ls)
      have e1 : renderLinesL ((k, v) :: ls) ++ rest
          = renderLineL k v ++ (renderLinesL ls ++ rest) := by
        simp [renderLinesL]
      have hl : line (renderLineL k v ++ (renderLinesL ls ++ rest))
          = some ((k, specLineValue v), renderLinesL ls ++ rest) :=
        line_rendered hkv.1 hkv.2
      have ih := lineStar_rendered hrest ls
        (fun q hq => hall q (List.mem_cons_of_mem _ hq))
      rw [e1, lineStar_of_some hl, ih]
      simp

theorem newlineStar_of_keyChar_head {k : String} {rest : List Char} (hk : ValidKey k) :
    newlineStar (k.data ++ rest) = k.data ++ rest := by
  unfold newlineStar
  cases hk1 : k.data with
  | nil => exact absurd hk1 hk.1
  | cons c cd =>
      have hc : isKeyChar c = true := hk.2 c (hk1 ▸ List.mem_cons_self c cd)
      simp [List.dropWhile_cons, keyChar_ne_newline hc]

theorem block_rendered (k hst : String) (ls : List (String × String)) (rest : List Char)
    (hk : ValidKey k) (hh : ValidHost hst) (hls : ∀ p ∈ ls, ValidKey p.1 ∧ ValidVal p.2)
    (hne : ls ≠ []) (hlrest : line rest = Option.none)
    (hlast : last_line rest = Option.none) :
    block (renderHeaderL k hst ++ (renderLinesL ls ++ rest))
      = some (dictOfPairs ((k, Value.str hst)
          :: ls.map (fun p => (p.1, specLineValue p.2))), rest) := by
  have hnl : newlineStar (renderHeaderL k hst ++ (renderLinesL ls ++ rest))
      = renderHeaderL k hst ++ (renderLinesL ls ++ rest) := by
    have e0 : renderHeaderL k hst ++ (renderLinesL ls ++ rest)
        = k.data ++ ((' ' :: (hst.data ++ ['\n'])) ++ (renderLinesL ls ++ rest)) := by
      simp [renderHeaderL]
    rw [e0, newlineStar_of_keyChar_head hk]
  have hfl : first_line (renderHeaderL k hst ++ (renderLinesL ls ++ rest))
      = some ((k, Value.str hst), renderLinesL ls ++ rest) := first_line_rendered hk hh
  cases hls0 : ls with
  | nil => exact absurd hls0 hne
  | cons p ls' =>
      obtain ⟨k0, v0⟩ := p
      subst hls0
      have hkv0 := hls (k0, v0) (List.mem_cons_self (k0, v0) ls')
      have e2 : renderLinesL ((k0, v0) :: ls') ++ rest
          = renderLineL k0 v0 ++ (renderLinesL ls' ++ rest) := by
        simp [renderLinesL]
      have hl0 : line (renderLinesL ((k0, v0) :: ls') ++ rest)
          = some ((k0, specLineValue v0), renderLinesL ls' ++ rest) := by
        rw [e2]
        exact line_rendered hkv0.1 hkv0.2
      have hstar : lineStar (renderLinesL ls' ++ rest)
          = (ls'.map (fun p => (p.1, specLineValue p.2)), rest) :=
        lineStar_rendered hlrest ls' (fun q hq => hls q (List.mem_cons_of_mem _ hq))
      simp only [block, Option.bind_eq_bind, hnl, hfl, Option.some_bind, hl0, hstar, hlast,
        visit_block, List.map_cons]

theorem block_rendered_trailer (k hst kt vt : String) (ls : List (String × String))
    (hk : ValidKey k) (hh : ValidHost hst) (hls : ∀ p ∈ ls, ValidKey p.1 ∧ ValidVal p.2)
    (hne : ls ≠ []) (hkt : ValidKey kt) (hvt : ValidVal vt) :
    block (renderHeaderL k hst ++ (renderLinesL ls ++ renderTrailerL kt vt))
      = some (dictOfPairs ((k, Value.str hst)
          :: (ls.map (fun p => (p.1, specLineValue p.2)) ++ [(kt, Value.str vt)])), []) := by
  have hlrest : line (renderTrailerL kt vt) = Option.none := line_trailer_none hkt hvt
  have hlast : last_line (renderTrailerL kt vt) = some ((kt, Value.str vt), []) :=
    last_line_rendered hkt hvt
  have hnl : newlineStar (renderHeaderL k hst ++ (renderLinesL ls ++ renderTrailerL kt vt))
      = renderHeaderL k hst ++ (renderLinesL ls ++ renderTrailerL kt vt) := by
    have e0 : renderHeaderL k hst ++ (renderLinesL ls ++ renderTrailerL kt vt)
        = k.data ++ ((' ' :: (hst.data ++ ['\n'])) ++ (renderLinesL ls ++ renderTrailerL kt vt)) := by
      simp [renderHeaderL]
    rw [e0, newlineStar_of_keyChar_head hk]
  have hfl : first_line (renderHeaderL k hst ++ (renderLinesL ls ++ renderTrailerL kt vt))
      = some ((k, Value.str hst), renderLinesL ls ++ renderTrailerL kt vt) :=
    first_line_rendered hk hh
  cases hls0 : ls with
  | nil => exact absurd hls0 hne
  | cons p ls' =>
      obtain ⟨k0, v0⟩ := p
      subst hls0
      have hkv0 := hls (k0, v0) (List.mem_cons_self (k0, v0) ls')
      have e2 : renderLinesL ((k0, v0) :: ls') ++ renderTrailerL kt vt
          = renderLineL k0 v0 ++ (renderLinesL ls' ++ renderTrailerL kt vt) := by
        simp [renderLinesL]
      have hl0 : line (renderLinesL ((k0, v0) :: ls') ++ renderTrailerL kt vt)
          = some ((k0, specLineValue v0), renderLinesL ls' ++ renderTrailerL kt vt) := by
        rw [e2]
        exact line_rendered hkv0.1 hkv0.2
      have hstar : lineStar (renderLinesL ls' ++ renderTrailerL kt vt)
          = (ls'.map (fun p => (p.1, specLineValue p.2)), renderTrailerL kt vt) :=
        lineStar_rendered hlrest ls' (fun q hq => hls q (List.mem_cons_of_mem _ hq))
      simp only [block, Option.bind_eq_bind, hnl, hfl, Option.some_bind, hl0, hstar, hlast,
        visit_block, List.map_cons, List.cons_append]

/-! ### Claim theorems -/

/-- Claim C2: a successfully parsed body line whose value is a run of one to
five decimal digits (followed by its newline) contributes an integer field
equal to that digit run read in base 10, regardless of the key name; a body
line with any other value contributes the exact trailing string
(`specLineValue` is precisely that case split). -/
theorem claim_C2 (k v : String) (hk : ValidKey k) (hv : ValidVal v) (hkh : k ≠ "Host") :
    get_host_dicts ("Host a\n  " ++ k ++ " " ++ v ++ "\n")
      = some [[("Host", Value.str "a"), (k, specLineValue v)]] := by
  have l1 : ("Host a\n  " : String).data = ['H', 'o', 's', 't', ' ', 'a', '\n', ' ', ' '] := rfl
  have l2 : (" " : String).data = [' '] := rfl
  have l3 : ("\n" : String).data = ['\n'] := rfl
  have l4 : ("Host" : String).data = ['H', 'o', 's', 't'] := rfl
  have l5 : ("a" : String).data = ['a'] := rfl
  have hdata : ("Host a\n  " ++ k ++ " " ++ v ++ "\n").data
      = renderHeaderL "Host" "a" ++ (renderLinesL [(k, v)] ++ []) := by
    simp [String.data_append, renderHeaderL, renderLinesL, renderLineL, l1, l2, l3, l4, l5]
  have hblock := block_rendered "Host" "a" [(k, v)] []
    (by decide) (by decide)
    (by
      intro p hp
      rw [List.mem_singleton] at hp
      subst hp
      exact ⟨hk, hv⟩)
    (by simp) line_nil last_line_nil
  have hout := output_single hblock block_nil
  have hdict : dictOfPairs [("Host", Value.str "a"), (k, specLineValue v)]
      = [("Host", Value.str "a"), (k, specLineValue v)] := by
    simp [dictOfPairs, updAssoc, Ne.symm hkh]
  unfold get_host_dicts
  rw [hdata, hout]
  simp only [Option.map_some', List.map_cons, List.map_nil] at hdict ⊢
  rw [hdict]

/-- Claim C4 (amended statement is the claim itself): with two body lines
sharing a key, the record keeps that key once, at the position of its first
occurrence, with the later line's value. -/
theorem claim_C4 (k1 k2 v1 v2 v3 : String) (hk1 : ValidKey k1) (hk2 : ValidKey k2)
    (hv1 : ValidVal v1) (hv2 : ValidVal v2) (hv3 : ValidVal v3)
    (hne12 : k1 ≠ k2) (hneh1 : k1 ≠ "Host") (hneh2 : k2 ≠ "Host") (hnev : v1 ≠ v3) :
    get_host_dicts ("Host a\n  " ++ k1 ++ " " ++ v1 ++ "\n  " ++ k2 ++ " " ++ v2 ++ "\n  "
        ++ k1 ++ " " ++ v3 ++ "\n")
      = some [[("Host", Value.str "a"), (k1, specLineValue v3), (k2, specLineValue v2)]] := by
  have l1 : ("Host a\n  " : String).data = ['H', 'o', 's', 't', ' ', 'a', '\n', ' ', ' '] := rfl
  have l2 : (" " : String).data = [' '] := rfl
  have l3 : ("\n" : String).data = ['\n'] := rfl
  have l6 : ("\n  " : String).data = ['\n', ' ', ' '] := rfl
  have l4 : ("Host" : String).data = ['H', 'o', 's', 't'] := rfl
  have l5 : ("a" : String).data = ['a'] := rfl
  have hdata : ("Host a\n  " ++ k1 ++ " " ++ v1 ++ "\n  " ++ k2 ++ " " ++ v2 ++ "\n  "
        ++ k1 ++ " " ++ v3 ++ "\n").data
      = renderHeaderL "Host" "a" ++ (renderLinesL [(k1, v1), (k2, v2), (k1, v3)] ++ []) := by
    simp [String.data_append, renderHeaderL, renderLinesL, renderLineL, l1, l2, l3, l4, l5, l6]
  have hblock := block_rendered "Host" "a" [(k1, v1), (k2, v2), (k1, v3)] []
    (by decide) (by decide)
    (by
      intro p hp
      simp only [List.mem_cons, List.not_mem_nil, or_false] at hp
      rcases hp with rfl | rfl | rfl
      · exact ⟨hk1, hv1⟩
      · exact ⟨hk2, hv2⟩
      · exact ⟨hk1, hv3⟩)
    (by simp) line_nil last_line_nil
  have hout := output_single hblock block_nil
  have hdict : dictOfPairs [("Host", Value.str "a"), (k1, specLineValue v1),
      (k2, specLineValue v2), (k1, specLineValue v3)]
      = [("Host", Value.str "a"), (k1, specLineValue v3), (k2, specLineValue v2)] := by
    simp [dictOfPairs, updAssoc, Ne.symm hneh1, Ne.symm hneh2, hne12, Ne.symm hne12]
  unfold get_host_dicts
  rw [hdata, hout]
  simp only [Option.map_some', List.map_cons, List.map_nil] at hdict ⊢
  rw [hdict]

/-- Claim C1, amended: when no prefix of the input matches the grammar — in
particular when the first block's first body line is indented by a single
space, or the input is a lone header line with no hostname — `get_host_dicts`
raises a parse error and returns no document at all.  But when a proper
prefix of the input forms a valid document, `Grammar.match` succeeds on the
prefix: `get_host_dicts` returns the prefix's records and silently ignores
the unmatched remainder (here the trailing `"Z"`), instead of failing. -/
theorem claim_C1 (h k v : String) (hh : ValidHost h) (hk : ValidKey k) :
    get_host_dicts ("Host " ++ h ++ "\n " ++ k ++ " " ++ v) = Option.none ∧
    get_host_dicts "Host\n" = Option.none ∧
    output ("Host a\n  B c\nZ").data
      = some ([[("Host", Value.str "a"), ("B", Value.str "c")]], ['Z']) := by
  refine ⟨?_, rfl, rfl⟩
  have l1 : ("Host " : String).data = ['H', 'o', 's', 't', ' '] := rfl
  have l2 : (" " : String).data = [' '] := rfl
  have l3 : ("\n " : String).data = ['\n', ' '] := rfl
  have l4 : ("Host" : String).data = ['H', 'o', 's', 't'] := rfl
  have hdata : ("Host " ++ h ++ "\n " ++ k ++ " " ++ v).data
      = renderHeaderL "Host" h ++ (' ' :: (k.data ++ (' ' :: v.data))) := by
    simp [String.data_append, renderHeaderL, l1, l2, l3, l4]
  have hnl : newlineStar (renderHeaderL "Host" h ++ (' ' :: (k.data ++ (' ' :: v.data))))
      = renderHeaderL "Host" h ++ (' ' :: (k.data ++ (' ' :: v.data))) := by
    have e0 : renderHeaderL "Host" h ++ (' ' :: (k.data ++ (' ' :: v.data)))
        = ("Host" : String).data
            ++ ((' ' :: (h.data ++ ['\n'])) ++ (' ' :: (k.data ++ (' ' :: v.data)))) := by
      simp [renderHeaderL]
    rw [e0, newlineStar_of_keyChar_head (by decide)]
  have hfl : first_line (renderHeaderL "Host" h ++ (' ' :: (k.data ++ (' ' :: v.data))))
      = some (("Host", Value.str h), ' ' :: (k.data ++ (' ' :: v.data))) :=
    first_line_rendered (by decide) hh
  have hline : line (' ' :: (k.data ++ (' ' :: v.data))) = Option.none := by
    cases hk1 : k.data with
    | nil => exact absurd hk1 hk.1
    | cons c cd =>
        have hc : isKeyChar c = true := hk.2 c (hk1 ▸ List.mem_cons_self c cd)
        exact line_cons_not_space (not_pySpace_of_keyChar hc)
  have hblock : block (renderHeaderL "Host" h ++ (' ' :: (k.data ++ (' ' :: v.data))))
      = Option.none := by
    simp only [block, Option.bind_eq_bind, hnl, hfl, Option.some_bind, hline, Option.none_bind]
  unfold get_host_dicts
  rw [hdata, output_of_block_none hblock]
  rfl

/-- Claim C3, amended: a block consisting of only an unindented header line
is NOT valid — the `block` rule requires at least one indented body line
(`line+`), so `get_host_dicts` fails on a header-only input, with or without
its trailing newline. -/
theorem claim_C3 (h : String) (hh : ValidHost h) :
    get_host_dicts ("Host " ++ h ++ "\n") = Option.none ∧
    get_host_dicts ("Host " ++ h) = Option.none := by
  have l1 : ("Host " : String).data = ['H', 'o', 's', 't', ' '] := rfl
  have l3 : ("\n" : String).data = ['\n'] := rfl
  have l4 : ("Host" : String).data = ['H', 'o', 's', 't'] := rfl
  constructor
  · have hdata : ("Host " ++ h ++ "\n").data = renderHeaderL "Host" h ++ [] := by
      simp [String.data_append, renderHeaderL, l1, l3, l4]
    have hnl : newlineStar (renderHeaderL "Host" h ++ [])
        = renderHeaderL "Host" h ++ [] := by
      have e0 : renderHeaderL "Host" h ++ ([] : List Char)
          = ("Host" : String).data ++ ((' ' :: (h.data ++ ['\n'])) ++ []) := by
        simp [renderHeaderL]
      rw [e0, newlineStar_of_keyChar_head (by decide)]
    have hfl : first_line (renderHeaderL "Host" h ++ [])
        = some (("Host", Value.str h), []) := first_line_rendered (by decide) hh
    have hblock : block (renderHeaderL "Host" h ++ []) = Option.none := by
      simp only [block, Option.bind_eq_bind, hnl, hfl, Option.some_bind, line_nil,
        Option.none_bind]
    unfold get_host_dicts
    rw [hdata, output_of_block_none hblock]
    rfl
  · have hdata : ("Host " ++ h).data = ("Host" : String).data ++ (' ' :: h.data) := by
      simp [String.data_append, l1, l4]
    have hnl : newlineStar (("Host" : String).data ++ (' ' :: h.data))
        = ("Host" : String).data ++ (' ' :: h.data) :=
      newlineStar_of_keyChar_head (by decide)
    have hmk : matchKey (("Host" : String).data ++ (' ' :: h.data))
        = some ("Host", ' ' :: h.data) :=
      matchKey_append (by decide) (head_obligation (by decide))
    have hw1 : matchWhitespace1 (' ' :: h.data) = some (String.mk [' '], h.data) :=
      matchWhitespace1_cons (by decide) _
    have hhn : matchHostname h.data = some (h, []) := by
      have h0 : matchHostname (h.data ++ ([] : List Char)) = some (h, []) :=
        matchHostname_append hh (fun c hc => by simp at hc)
      rwa [List.append_nil] at h0
    have hfl : first_line (("Host" : String).data ++ (' ' :: h.data)) = Option.none := by
      simp only [first_line, Option.bind_eq_bind, hmk, Option.some_bind, hw1, hhn,
        matchNewline_nil, Option.none_bind]
    have hblock : block (("Host" : String).data ++ (' ' :: h.data)) = Option.none := by
      simp only [block, Option.bind_eq_bind, hnl, hfl, Option.none_bind]
    unfold get_host_dicts
    rw [hdata, output_of_block_none hblock]
    rfl

theorem renderLinesStr_data : ∀ (ls : List (String × String)),
    (renderLinesStr ls).data = renderLinesL ls
  | [] => rfl
  | (k, v) :: ls => by
      show ("  " ++ k ++ " " ++ v ++ "\n" ++ renderLinesStr ls).data
          = renderLineL k v ++ renderLinesL ls
      have l2 : (" " : String).data = [' '] := rfl
      have l3 : ("\n" : String).data = ['\n'] := rfl
      have l7 : ("  " : String).data = [' ', ' '] := rfl
      simp [String.data_append, renderLineL, renderLinesStr_data ls, l2, l3, l7]

theorem renderLinesL_append : ∀ (a b : List (String × String)),
    renderLinesL (a ++ b) = renderLinesL a ++ renderLinesL b
  | [], _ => rfl
  | p :: a, b => by
      show renderLineL p.1 p.2 ++ renderLinesL (a ++ b)
          = (renderLineL p.1 p.2 ++ renderLinesL a) ++ renderLinesL b
      rw [renderLinesL_append a b, List.append_assoc]

/-- Claim C5, amended: appending the missing final newline preserves the
parse when the final block has at least two body lines and the trailer's
value is not a 1-5 digit run.  (Without those side conditions the claim
fails: a single trailer body line makes `line+` fail entirely, and a digit
trailer is a string without the newline but an integer with it.) -/
theorem claim_C5 (h kt vt : String) (ls : List (String × String)) (hh : ValidHost h)
    (hls : ∀ p ∈ ls, ValidKey p.1 ∧ ValidVal p.2) (hne : ls ≠ [])
    (hkt : ValidKey kt) (hvt : ValidVal vt)
    (hnd : ¬(vt.data.all isDigitChar = true ∧ vt.data.length ≤ 5)) :
    get_host_dicts ("Host " ++ h ++ "\n" ++ renderLinesStr ls ++ "  " ++ kt ++ " " ++ vt)
      = get_host_dicts ("Host " ++ h ++ "\n" ++ renderLinesStr ls ++ "  " ++ kt ++ " " ++ vt
          ++ "\n") := by
  have l1 : ("Host " : String).data = ['H', 'o', 's', 't', ' '] := rfl
  have l2 : (" " : String).data = [' '] := rfl
  have l3 : ("\n" : String).data = ['\n'] := rfl
  have l7 : ("  " : String).data = [' ', ' '] := rfl
  have l4 : ("Host" : String).data = ['H', 'o', 's', 't'] := rfl
  have hdata1 : ("Host " ++ h ++ "\n" ++ renderLinesStr ls ++ "  " ++ kt ++ " " ++ vt).data
      = renderHeaderL "Host" h ++ (renderLinesL ls ++ renderTrailerL kt vt) := by
    simp [String.data_append, renderHeaderL, renderTrailerL, renderLinesStr_data,
      l1, l2, l3, l4, l7]
  have hb1 := block_rendered_trailer "Host" h kt vt ls
    (by decide) hh hls hne hkt hvt
  have hout1 := output_single hb1 block_nil
  have hdata2 : ("Host " ++ h ++ "\n" ++ renderLinesStr ls ++ "  " ++ kt ++ " " ++ vt
        ++ "\n").data
      = renderHeaderL "Host" h ++ (renderLinesL (ls ++ [(kt, vt)]) ++ []) := by
    have hsingle : renderLinesL [(kt, vt)] = renderLineL kt vt ++ [] := rfl
    rw [renderLinesL_append, hsingle]
    simp [String.data_append, renderHeaderL, renderLineL, renderLinesStr_data,
      l1, l2, l3, l4, l7]
  have hb2 := block_rendered "Host" h (ls ++ [(kt, vt)]) []
    (by decide) hh
    (by
      intro p hp
      rcases List.mem_append.mp hp with hp | hp
      · exact hls p hp
      · rw [List.mem_singleton] at hp
        subst hp
        exact ⟨hkt, hvt⟩)
    (by simp) line_nil last_line_nil
  have hout2 := output_single hb2 block_nil
  have hspec : specLineValue vt = Value.str vt := by
    unfold specLineValue
    rw [if_neg (fun hcon => hnd ⟨hcon.2.1, hcon.2.2⟩)]
  unfold get_host_dicts
  rw [hdata1, hout1, hdata2, hout2]
  simp only [Option.map_some', List.map_append, List.map_cons, List.map_nil, hspec]

theorem not_keyChar_of_pySpace {c : Char} (h : isPySpace c = true) : isKeyChar c = false := by
  cases hk : isKeyChar c
  · rfl
  · rw [not_pySpace_of_keyChar hk] at h
    exact Bool.noConfusion h

theorem matchPortNumber_cons_not_digit {c : Char} {l : List Char}
    (h : isDigitChar c = false) : matchPortNumber (c :: l) = Option.none := by
  simp [matchPortNumber, List.takeWhile_cons, h]

theorem line_extra_ws {k : String} {w t rest : List Char} (hk : ValidKey k)
    (hw2 : 2 ≤ w.length) (hwc : ∀ c ∈ w, isPySpace c = true ∧ c ≠ '\n')
    (ht : t ≠ []) (htc : ∀ c ∈ t, c ≠ '\n') :
    line (' ' :: ' ' :: (k.data ++ (w ++ (t ++ ('\n' :: rest)))))
      = some ((k, Value.str (String.mk (w.drop 1 ++ t))), rest) := by
  obtain ⟨c0, w1, rfl⟩ : ∃ c0 w1, w = c0 :: w1 := by
    cases w with
    | nil => simp at hw2
    | cons a b => exact ⟨a, b, rfl⟩
  obtain ⟨c1, w2, rfl⟩ : ∃ c1 w2, w1 = c1 :: w2 := by
    cases w1 with
    | nil => simp at hw2
    | cons a b => exact ⟨a, b, rfl⟩
  have hc0 := hwc c0 (List.mem_cons_self c0 _)
  have hc1 := hwc c1 (List.mem_cons_of_mem _ (List.mem_cons_self c1 _))
  have e1 : (c0 :: c1 :: w2) ++ (t ++ ('\n' :: rest))
      = c0 :: ((c1 :: (w2 ++ t)) ++ ('\n' :: rest)) := by simp
  rw [e1]
  have hw2m : matchWhitespace2
      (' ' :: ' ' :: (k.data ++ (c0 :: ((c1 :: (w2 ++ t)) ++ ('\n' :: rest)))))
      = some (String.mk [' ', ' '], k.data ++ (c0 :: ((c1 :: (w2 ++ t)) ++ ('\n' :: rest)))) :=
    matchWhitespace2_cons (by decide) (by decide) _
  have hmk : matchKey (k.data ++ (c0 :: ((c1 :: (w2 ++ t)) ++ ('\n' :: rest))))
      = some (k, c0 :: ((c1 :: (w2 ++ t)) ++ ('\n' :: rest))) :=
    matchKey_append hk (head_obligation (not_keyChar_of_pySpace hc0.1))
  have hw1m : matchWhitespace1 (c0 :: ((c1 :: (w2 ++ t)) ++ ('\n' :: rest)))
      = some (String.mk [c0], (c1 :: (w2 ++ t)) ++ ('\n' :: rest)) :=
    matchWhitespace1_cons hc0.1 _
  have hport : port_line
      (' ' :: ' ' :: (k.data ++ (c0 :: ((c1 :: (w2 ++ t)) ++ ('\n' :: rest)))))
      = Option.none := by
    have hmp : matchPortNumber ((c1 :: (w2 ++ t)) ++ ('\n' :: rest)) = Option.none := by
      rw [List.cons_append]
      exact matchPortNumber_cons_not_digit (by
        cases hd : isDigitChar c1
        · rfl
        · rw [not_pySpace_of_digit hd] at hc1
          exact Bool.noConfusion hc1.1)
    simp only [port_line, Option.bind_eq_bind, hw2m, Option.some_bind, hmk, hw1m, hmp,
      Option.none_bind]
  have hmv : matchValue ((c1 :: (w2 ++ t)) ++ ('\n' :: rest))
      = some (String.mk (c1 :: (w2 ++ t)), '\n' :: rest) := by
    refine takeWhile1_append (List.cons_ne_nil _ _) ?_ (head_obligation (by decide))
    intro c hc
    rcases List.mem_cons.mp hc with rfl | hc
    · simp [isValueChar, hc1.2]
    · rcases List.mem_append.mp hc with hc | hc
      · have := hwc c (List.mem_cons_of_mem _ (List.mem_cons_of_mem _ hc))
        simp [isValueChar, this.2]
      · simp [isValueChar, htc c hc]
  have hval : String.mk ((c0 :: c1 :: w2).drop 1 ++ t) = String.mk (c1 :: (w2 ++ t)) := by
    simp
  rw [hval]
  simp only [line, hport, arbitrary_line, Option.bind_eq_bind, hw2m, Option.some_bind, hmk,
    hw1m, hmv, matchNewline_cons_newline]

/-- Claim C8, amended: when the key of a body line is followed by a run of
more than one whitespace character, `whitespace1` consumes only the FIRST
character of the run; the generic field's value is the rest of the line
including the remaining whitespace of the run, not the text after the whole
run. -/
theorem claim_C8 (k t : String) (w : List Char) (hk : ValidKey k) (hkh : k ≠ "Host")
    (hw2 : 2 ≤ w.length) (hwc : ∀ c ∈ w, isPySpace c = true ∧ c ≠ '\n')
    (ht : t.data ≠ []) (htc : ∀ c ∈ t.data, c ≠ '\n')
    (hth : ∀ c, t.data.head? = some c → isPySpace c = false) :
    get_host_dicts ("Host a\n  " ++ k ++ String.mk w ++ t ++ "\n")
      = some [[("Host", Value.str "a"), (k, Value.str (String.mk (w.drop 1 ++ t.data)))]] := by
  have l1 : ("Host a\n  " : String).data = ['H', 'o', 's', 't', ' ', 'a', '\n', ' ', ' '] := rfl
  have l3 : ("\n" : String).data = ['\n'] := rfl
  have l4 : ("Host" : String).data = ['H', 'o', 's', 't'] := rfl
  have l5 : ("a" : String).data = ['a'] := rfl
  have lw : (String.mk w).data = w := rfl
  have hdata : ("Host a\n  " ++ k ++ String.mk w ++ t ++ "\n").data
      = renderHeaderL "Host" "a"
          ++ (' ' :: ' ' :: (k.data ++ (w ++ (t.data ++ ('\n' :: []))))) := by
    simp [String.data_append, renderHeaderL, l1, l3, l4, l5, lw]
  have hnl : newlineStar (renderHeaderL "Host" "a"
        ++ (' ' :: ' ' :: (k.data ++ (w ++ (t.data ++ ('\n' :: []))))))
      = renderHeaderL "Host" "a"
        ++ (' ' :: ' ' :: (k.data ++ (w ++ (t.data ++ ('\n' :: []))))) := by
    have e0 : renderHeaderL "Host" "a"
          ++ (' ' :: ' ' :: (k.data ++ (w ++ (t.data ++ ('\n' :: [])))))
        = ("Host" : String).data ++ ((' ' :: (("a" : String).data ++ ['\n']))
            ++ (' ' :: ' ' :: (k.data ++ (w ++ (t.data ++ ('\n' :: [])))))) := by
      simp [renderHeaderL]
    rw [e0, newlineStar_of_keyChar_head (by decide)]
  have hfl : first_line (renderHeaderL "Host" "a"
        ++ (' ' :: ' ' :: (k.data ++ (w ++ (t.data ++ ('\n' :: []))))))
      = some (("Host", Value.str "a"),
          ' ' :: ' ' :: (k.data ++ (w ++ (t.data ++ ('\n' :: []))))) :=
    first_line_rendered (by decide) (by decide)
  have hline : line (' ' :: ' ' :: (k.data ++ (w ++ (t.data ++ ('\n' :: [])))))
      = some ((k, Value.str (String.mk (w.drop 1 ++ t.data))), []) :=
    line_extra_ws hk hw2 hwc ht htc
  have hblock : block (renderHeaderL "Host" "a"
        ++ (' ' :: ' ' :: (k.data ++ (w ++ (t.data ++ ('\n' :: []))))))
      = some (dictOfPairs [("Host", Value.str "a"),
          (k, Value.str (String.mk (w.drop 1 ++ t.data)))], []) := by
    simp only [block, Option.bind_eq_bind, hnl, hfl, Option.some_bind, hline,
      lineStar_of_none line_nil, last_line_nil, visit_block]
  have hout := output_single hblock block_nil
  have hdict : dictOfPairs [("Host", Value.str "a"),
        (k, Value.str (String.mk (w.drop 1 ++ t.data)))]
      = [("Host", Value.str "a"), (k, Value.str (String.mk (w.drop 1 ++ t.data)))] := by
    simp [dictOfPairs, updAssoc, Ne.symm hkh]
  unfold get_host_dicts
  rw [hdata, hout, hdict]
  rfl

/-! ### The record-value invariant -/

theorem digit_toNat_le {c : Char} (h : isDigitChar c = true) : c.toNat ≤ 57 := by
  simp only [isDigitChar, Bool.and_eq_true, decide_eq_true_eq] at h
  have h2 := h.2
  rw [Char.le_def, UInt32.le_def, BitVec.le_def] at h2
  exact h2

theorem digitsFold_lt (a : Nat) : ∀ (ds : List Char), (∀ c ∈ ds, isDigitChar c = true) →
    ds.foldl (fun a c => 10 * a + (c.toNat - 48)) a < (a + 1) * 10 ^ ds.length
  | [], _ => by simp
  | c :: ds, h => by
      have hc := digit_toNat_le (h c (List.mem_cons_self c ds))
      have ih := digitsFold_lt (10 * a + (c.toNat - 48)) ds
        (fun x hx => h x (List.mem_cons_of_mem _ hx))
      simp only [List.foldl_cons, List.length_cons]
      have hstep : (10 * a + (c.toNat - 48) + 1) * 10 ^ ds.length
          ≤ (a + 1) * 10 ^ (ds.length + 1) := by
        rw [pow_succ]
        have hb : 10 * a + (c.toNat - 48) + 1 ≤ (a + 1) * 10 := by omega
        calc (10 * a + (c.toNat - 48) + 1) * 10 ^ ds.length
            ≤ ((a + 1) * 10) * 10 ^ ds.length := Nat.mul_le_mul_right _ hb
          _ = (a + 1) * (10 ^ ds.length * 10) := by ring
      exact Nat.lt_of_lt_of_le ih hstep

theorem digitsVal_lt_100000 {ds : List Char} (h : ∀ c ∈ ds, isDigitChar c = true)
    (hlen : ds.length ≤ 5) : digitsVal ds < 100000 := by
  have hfold := digitsFold_lt 0 ds h
  have hp : (10 : Nat) ^ ds.length ≤ 10 ^ 5 := Nat.pow_le_pow_right (by omega) hlen
  unfold digitsVal
  calc ds.foldl (fun a c => 10 * a + (c.toNat - 48)) 0
      < (0 + 1) * 10 ^ ds.length := hfold
    _ = 10 ^ ds.length := by ring
    _ ≤ 10 ^ 5 := hp
    _ = 100000 := by norm_num

theorem takeWhile1_props {p : Char → Bool} {cs r : List Char} {s : String}
    (h : takeWhile1 p cs = some (s, r)) : s.data ≠ [] ∧ ∀ c ∈ s.data, p c = true := by
  simp only [takeWhile1] at h
  split at h
  · exact Option.noConfusion h
  · rename_i hne
    simp only [Option.some.injEq, Prod.mk.injEq] at h
    obtain ⟨hs, -⟩ := h
    subst hs
    exact ⟨hne, all_takeWhile cs⟩

theorem matchPortNumber_props {cs r : List Char} {s : String}
    (h : matchPortNumber cs = some (s, r)) :
    s.data ≠ [] ∧ (∀ c ∈ s.data, isDigitChar c = true) ∧ s.data.length ≤ 5 := by
  simp only [matchPortNumber] at h
  split at h
  · exact Option.noConfusion h
  · rename_i hne
    simp only [Option.some.injEq, Prod.mk.injEq] at h
    obtain ⟨hs, -⟩ := h
    subst hs
    refine ⟨hne, ?_, List.length_take_le ..⟩
    intro c hc
    exact all_takeWhile cs c (List.take_subset _ _ hc)

theorem visit_port_number_ok {s : String} (hne : s.data ≠ [])
    (hall : ∀ c ∈ s.data, isDigitChar c = true) (hlen : s.data.length ≤ 5) :
    ValueOK (visit_port_number s) := by
  rw [visit_port_number_digits hne hall]
  refine ⟨Int.ofNat_nonneg _, ?_⟩
  have hlt := digitsVal_lt_100000 hall hlen
  show (digitsVal s.data : Int) < 100000
  exact_mod_cast hlt

theorem line_ok {cs r : List Char} {e : Entry} (h : line cs = some (e, r)) : ValueOK e.2 := by
  unfold line at h
  split at h
  · rename_i r1 h1
    injection h with h2
    subst h2
    simp only [port_line, Option.bind_eq_bind, Option.bind_eq_some] at h1
    obtain ⟨⟨w2, cs1⟩, -, h1⟩ := h1
    obtain ⟨⟨k, cs2⟩, -, h1⟩ := h1
    obtain ⟨⟨w1, cs3⟩, -, h1⟩ := h1
    obtain ⟨⟨p, cs4⟩, hp, h1⟩ := h1
    obtain ⟨⟨nl, cs5⟩, -, h1⟩ := h1
    simp only [Option.some.injEq, Prod.mk.injEq] at h1
    obtain ⟨he, -⟩ := h1
    subst he
    obtain ⟨hpne, hpall, hplen⟩ := matchPortNumber_props hp
    exact visit_port_number_ok hpne hpall hplen
  · simp only [arbitrary_line, Option.bind_eq_bind, Option.bind_eq_some] at h
    obtain ⟨⟨w2, cs1⟩, -, h⟩ := h
    obtain ⟨⟨k, cs2⟩, -, h⟩ := h
    obtain ⟨⟨w1, cs3⟩, -, h⟩ := h
    obtain ⟨⟨v, cs4⟩, hv, h⟩ := h
    obtain ⟨⟨nl, cs5⟩, -, h⟩ := h
    simp only [Option.some.injEq, Prod.mk.injEq] at h
    obtain ⟨he, -⟩ := h
    subst he
    exact (takeWhile1_props hv).1

theorem last_line_ok {cs r : List Char} {e : Entry} (h : last_line cs = some (e, r)) :
    ValueOK e.2 := by
  simp only [last_line, Option.bind_eq_bind, Option.bind_eq_some] at h
  obtain ⟨⟨w2, cs1⟩, -, h⟩ := h
  obtain ⟨⟨k, cs2⟩, -, h⟩ := h
  obtain ⟨⟨w1, cs3⟩, -, h⟩ := h
  obtain ⟨⟨v, cs4⟩, hv, h⟩ := h
  simp only [Option.some.injEq, Prod.mk.injEq] at h
  obtain ⟨he, -⟩ := h
  subst he
  exact (takeWhile1_props hv).1

theorem first_line_ok {cs r : List Char} {e : Entry} (h : first_line cs = some (e, r)) :
    ValueOK e.2 ∧ e.1.data ≠ [] ∧ ∀ c ∈ e.1.data, isKeyChar c = true := by
  simp only [first_line, Option.bind_eq_bind, Option.bind_eq_some] at h
  obtain ⟨⟨k, cs1⟩, hk, h⟩ := h
  obtain ⟨⟨w1, cs2⟩, -, h⟩ := h
  obtain ⟨⟨hn, cs3⟩, hh, h⟩ := h
  obtain ⟨⟨nl, cs4⟩, -, h⟩ := h
  simp only [Option.some.injEq, Prod.mk.injEq] at h
  obtain ⟨he, -⟩ := h
  subst he
  exact ⟨(takeWhile1_props hh).1, (takeWhile1_props hk).1, (takeWhile1_props hk).2⟩

theorem lineStarF_ok : ∀ (f : Nat) (cs : List Char), ∀ e ∈ (lineStarF f cs).1, ValueOK e.2
  | 0, cs => by simp [lineStarF]
  | f + 1, cs => by
      rw [lineStarF_succ]
      cases h : line cs with
      | none => simp
      | some ecs =>
          obtain ⟨e0, cs'⟩ := ecs
          dsimp only
          intro e he
          rcases List.mem_cons.mp he with rfl | he
          · exact line_ok h
          · exact lineStarF_ok f cs' e he

theorem mem_updAssoc : ∀ {d : HostDict} {k : String} {v : Value} {p : Entry},
    p ∈ updAssoc d k v → p ∈ d ∨ p = (k, v)
  | [], k, v, p => by
      intro hp
      simp only [updAssoc] at hp
      exact Or.inr (List.mem_singleton.mp hp)
  | (k', v') :: d, k, v, p => by
      simp only [updAssoc]
      split
      · intro hp
        rcases List.mem_cons.mp hp with rfl | hp
        · exact Or.inr rfl
        · exact Or.inl (List.mem_cons_of_mem _ hp)
      · intro hp
        rcases List.mem_cons.mp hp with rfl | hp
        · exact Or.inl (List.mem_cons_self _ _)
        · rcases mem_updAssoc hp with h1 | h1
          · exact Or.inl (List.mem_cons_of_mem _ h1)
          · exact Or.inr h1

theorem mem_foldl_upd : ∀ {l : List Entry} {acc : HostDict} {p : Entry},
    p ∈ l.foldl (fun d e => updAssoc d e.1 e.2) acc → p ∈ acc ∨ p ∈ l
  | [], _, _ => fun h => Or.inl h
  | e :: l, acc, p => by
      intro h
      simp only [List.foldl_cons] at h
      rcases mem_foldl_upd h with h1 | h1
      · rcases mem_updAssoc h1 with h2 | h2
        · exact Or.inl h2
        · refine Or.inr ?_
          rw [h2, Prod.mk.eta]
          exact List.mem_cons_self _ _
      · exact Or.inr (List.mem_cons_of_mem _ h1)

theorem mem_dictOfPairs {l : List Entry} {p : Entry} (h : p ∈ dictOfPairs l) : p ∈ l := by
  unfold dictOfPairs at h
  rcases mem_foldl_upd h with h1 | h1
  · exact absurd h1 (List.not_mem_nil p)
  · exact h1

theorem updAssoc_head {d : HostDict} {k0 k : String} {v0 v : Value}
    (h : d.head? = some (k0, v0)) : ∃ v1, (updAssoc d k v).head? = some (k0, v1) := by
  cases d with
  | nil => exact Option.noConfusion h
  | cons e d =>
      obtain ⟨k', v'⟩ := e
      simp only [List.head?_cons, Option.some.injEq, Prod.mk.injEq] at h
      obtain ⟨rfl, rfl⟩ := h
      simp only [updAssoc]
      split
      · rename_i heq
        refine ⟨v, ?_⟩
        rw [← heq]
        rfl
      · exact ⟨v', rfl⟩

theorem foldl_upd_head : ∀ {l : List Entry} {acc : HostDict} {k0 : String} {v0 : Value},
    acc.head? = some (k0, v0) →
    ∃ v1, (l.foldl (fun d e => updAssoc d e.1 e.2) acc).head? = some (k0, v1)
  | [], _, _, v0 => fun h => ⟨v0, h⟩
  | e :: l, acc, k0, v0 => by
      intro h
      obtain ⟨v1, h1⟩ := updAssoc_head (k := e.1) (v := e.2) h
      simp only [List.foldl_cons]
      exact foldl_upd_head h1

theorem dictOfPairs_cons_head {k0 : String} {v0 : Value} {l : List Entry} :
    ∃ v1, (dictOfPairs ((k0, v0) :: l)).head? = some (k0, v1) := by
  unfold dictOfPairs
  simp only [List.foldl_cons]
  exact foldl_upd_head (show (updAssoc [] k0 v0).head? = some (k0, v0) from rfl)

/-- Every dict a `block` produces has only OK values, and its first entry in
iteration order carries the block's header key: a non-empty `[A-z]` run. -/
theorem block_ok {cs r : List Char} {d : HostDict} (h : block cs = some (d, r)) :
    (∀ p ∈ d, ValueOK p.2) ∧
    ∃ k v, d.head? = some (k, v) ∧ k.data ≠ [] ∧ ∀ c ∈ k.data, isKeyChar c = true := by
  simp only [block, Option.bind_eq_bind, Option.bind_eq_some] at h
  obtain ⟨⟨first, cs1⟩, h1, h⟩ := h
  obtain ⟨⟨e1, cs2⟩, h2, h⟩ := h
  dsimp only at h
  obtain ⟨hfv, hfk1, hfk2⟩ := first_line_ok h1
  obtain ⟨kf, vf⟩ := first
  have hmem : ∀ (lastl : Option Entry),
      (∀ la, lastl = some la → ValueOK la.2) →
      ∀ p ∈ visit_block (kf, vf) (e1 :: (lineStar cs2).1) lastl, ValueOK p.2 := by
    intro lastl hla p hp
    have hp1 : p ∈ (kf, vf) :: (e1 :: (lineStar cs2).1) ++ [] ∨
        (∃ la, lastl = some la ∧ p ∈ (kf, vf) :: ((e1 :: (lineStar cs2).1) ++ [la])) := by
      cases lastl with
      | none =>
          left
          rw [List.append_nil]
          exact mem_dictOfPairs hp
      | some la =>
          right
          exact ⟨la, rfl, mem_dictOfPairs hp⟩
    rcases hp1 with hp1 | ⟨la, hla2, hp1⟩
    · rw [List.append_nil] at hp1
      rcases List.mem_cons.mp hp1 with rfl | hp1
      · exact hfv
      · rcases List.mem_cons.mp hp1 with rfl | hp1
        · exact line_ok h2
        · exact lineStarF_ok _ cs2 p hp1
    · rcases List.mem_cons.mp hp1 with rfl | hp1
      · exact hfv
      · rcases List.mem_append.mp hp1 with hp1 | hp1
        · rcases List.mem_cons.mp hp1 with rfl | hp1
          · exact line_ok h2
          · exact lineStarF_ok _ cs2 p hp1
        · rw [List.mem_singleton.mp hp1]
          exact hla la hla2
  have hhead : ∀ (lastl : Option Entry),
      ∃ v1, (visit_block (kf, vf) (e1 :: (lineStar cs2).1) lastl).head? = some (kf, v1) := by
    intro lastl
    cases lastl with
    | none => exact dictOfPairs_cons_head
    | some la => exact dictOfPairs_cons_head
  split at h
  · rename_i la cs4 hlast
    simp only [Option.some.injEq, Prod.mk.injEq] at h
    obtain ⟨hd, -⟩ := h
    subst hd
    refine ⟨hmem (some la) (fun la2 hla2 => ?_), ?_⟩
    · cases hla2
      exact last_line_ok hlast
    · obtain ⟨v1, hv1⟩ := hhead (some la)
      exact ⟨kf, v1, hv1, hfk1, hfk2⟩
  · simp only [Option.some.injEq, Prod.mk.injEq] at h
    obtain ⟨hd, -⟩ := h
    subst hd
    refine ⟨hmem Option.none (fun la2 hla2 => Option.noConfusion hla2), ?_⟩
    obtain ⟨v1, hv1⟩ := hhead Option.none
    exact ⟨kf, v1, hv1, hfk1, hfk2⟩

theorem blockStarF_ok : ∀ (f : Nat) (cs : List Char), ∀ d ∈ (blockStarF f cs).1,
    (∀ p ∈ d, ValueOK p.2) ∧
    ∃ k v, d.head? = some (k, v) ∧ k.data ≠ [] ∧ ∀ c ∈ k.data, isKeyChar c = true
  | 0, cs => by simp [blockStarF]
  | f + 1, cs => by
      rw [blockStarF_succ]
      cases h : block cs with
      | none => simp
      | some dcs =>
          obtain ⟨d0, cs'⟩ := dcs
          dsimp only
          intro d hd
          rcases List.mem_cons.mp hd with rfl | hd
          · exact block_ok h
          · exact blockStarF_ok f cs' d hd

/-- Every record of a successful parse has only OK values, and its first
entry's key is the block's header key. -/
theorem get_host_dicts_ok {s : String} {recs : List HostDict}
    (h : get_host_dicts s = some recs) :
    ∀ d ∈ recs, (∀ p ∈ d, ValueOK p.2) ∧
      ∃ k v, d.head? = some (k, v) ∧ k.data ≠ [] ∧ ∀ c ∈ k.data, isKeyChar c = true := by
  unfold get_host_dicts at h
  simp only [Option.map_eq_some'] at h
  obtain ⟨⟨recs0, rest⟩, hout, hr⟩ := h
  dsimp only at hr
  subst hr
  simp only [output, Option.bind_eq_bind, Option.bind_eq_some] at hout
  obtain ⟨⟨d0, cs1⟩, hb, hout⟩ := hout
  dsimp only at hout
  simp only [Option.some.injEq, Prod.mk.injEq] at hout
  obtain ⟨hrecs, -⟩ := hout
  intro d hd
  rw [← hrecs] at hd
  rcases List.mem_cons.mp hd with rfl | hd
  · exact block_ok hb
  · exact blockStarF_ok _ cs1 d hd

/-- Claim C6, amended: an integer `Port` value produced by a successful
parse lies in `0..99999` (any one-to-five digit run, the range the
`port_number` regex admits), not in `1..65535`: `0` and `99999` are
accepted. -/
theorem claim_C6 (s : String) (recs : List HostDict) (hs : get_host_dicts s = some recs) :
    ∀ r ∈ recs, ∀ p ∈ r, ∀ n : Int, p.2 = Value.int n → 0 ≤ n ∧ n < 100000 := by
  intro r hr p hp n hn
  have h := ((get_host_dicts_ok hs) r hr).1 p hp
  rw [hn] at h
  exact h

/-- Claim C6 counterexample: `Port 0` and `Port 99999` both parse to
integers outside the range 1..65535 the claim asserts. -/
theorem claim_C6_counterexample :
    get_host_dicts "Host a\n  Port 0\n"
      = some [[("Host", Value.str "a"), ("Port", Value.int 0)]] ∧
    get_host_dicts "Host a\n  Port 99999\n"
      = some [[("Host", Value.str "a"), ("Port", Value.int 99999)]] ∧
    ¬(1 ≤ (0 : Int)) ∧ ¬((99999 : Int) ≤ 65535) :=
  ⟨rfl, rfl, by decide, by decide⟩

/-- Claim C6 witness: the theorem applied at a concrete parsed input. -/
theorem claim_C6_witness : (0 : Int) ≤ 2222 ∧ (2222 : Int) < 100000 :=
  claim_C6 "Host a\n  Port 2222\n" [[("Host", Value.str "a"), ("Port", Value.int 2222)]] rfl
    [("Host", Value.str "a"), ("Port", Value.int 2222)] (by decide)
    ("Port", Value.int 2222) (by decide) 2222 rfl

/-- Claim C7, amended: a record need not contain `Host` or `HostName`
fields.  What the parser does guarantee is that each record's first entry
in iteration order carries the block's header key: a non-empty `[A-z]`
letter run (which is `Host` for the real tool's output, but any letter run
for the grammar). -/
theorem claim_C7 (s : String) (recs : List HostDict) (hs : get_host_dicts s = some recs) :
    ∀ r ∈ recs, ∃ k v, r.head? = some (k, v) ∧ k ≠ ""
      ∧ ∀ c ∈ k.data, isKeyChar c = true := by
  intro r hr
  obtain ⟨k, v, hh, hk1, hk2⟩ := ((get_host_dicts_ok hs) r hr).2
  refine ⟨k, v, hh, ?_, hk2⟩
  intro hk
  subst hk
  exact hk1 rfl

/-- Claim C7 counterexample: a successfully parsed input whose record has
neither a `Host` nor a `HostName` field. -/
theorem claim_C7_counterexample :
    get_host_dicts "Aa bb\n  Cc dd\n"
      = some [[("Aa", Value.str "bb"), ("Cc", Value.str "dd")]] ∧
    (∀ p ∈ [("Aa", Value.str "bb"), ("Cc", Value.str "dd")],
      p.1 ≠ "Host" ∧ p.1 ≠ "HostName") :=
  ⟨rfl, by decide⟩

/-- Claim C7 witness: the theorem applied at a concrete parsed input. -/
theorem claim_C7_witness :
    ∃ k v, ([("Host", Value.str "a"), ("B", Value.str "c")] : HostDict).head?
        = some (k, v) ∧ k ≠ "" ∧ ∀ c ∈ k.data, isKeyChar c = true :=
  claim_C7 "Host a\n  B c\n" [[("Host", Value.str "a"), ("B", Value.str "c")]] rfl
    [("Host", Value.str "a"), ("B", Value.str "c")] (by decide)

/-- Claim C10: every field value of every record of a successful parse is
an integer or a non-empty string; the empty string (and the `None` of a
failed coercion) never appears. -/
theorem claim_C10 (s : String) (recs : List HostDict) (hs : get_host_dicts s = some recs) :
    ∀ r ∈ recs, ∀ p ∈ r,
      (∃ n : Int, p.2 = Value.int n) ∨ (∃ t : String, p.2 = Value.str t ∧ t ≠ "") := by
  intro r hr p hp
  have h := ((get_host_dicts_ok hs) r hr).1 p hp
  cases hv : p.2 with
  | str t =>
      rw [hv] at h
      refine Or.inr ⟨t, rfl, ?_⟩
      intro ht
      subst ht
      exact h rfl
  | int n => exact Or.inl ⟨n, rfl⟩
  | none =>
      rw [hv] at h
      exact h.elim

/-- Claim C10 witness: the theorem applied at a concrete parsed input. -/
theorem claim_C10_witness :
    (∃ n : Int, Value.int 2222 = Value.int n)
      ∨ (∃ t : String, Value.int 2222 = Value.str t ∧ t ≠ "") :=
  claim_C10 "Host b\n  Port 2222\n" [[("Host", Value.str "b"), ("Port", Value.int 2222)]] rfl
    [("Host", Value.str "b"), ("Port", Value.int 2222)] (by decide)
    ("Port", Value.int 2222) (by decide)

/-- Claim C9 (code bug): if the numeric coercion of a port_number node's
text fails, `visit_port_number` logs "Couldn't parse port, removing line"
but returns `None`, and `visit_block` then KEEPS the key, mapped to `None`
— the field is not dropped from the record, contradicting both the claim
and the code's own log message.  (The branch is unreachable from
`get_host_dicts`, since `int()` cannot fail on a grammar-matched 1-5 digit
run — see `visit_port_number_digits` — so this is exercised at the walker
component level, on a port_number node whose text is "x".) -/
theorem claim_C9 :
    visit_port_number "x" = Value.none ∧
    visit_block ("Host", Value.str "a") [("Port", visit_port_number "x")] Option.none
      = [("Host", Value.str "a"), ("Port", Value.none)] ∧
    ("Port", Value.none) ∈ visit_block ("Host", Value.str "a")
        [("Port", visit_port_number "x")] Option.none :=
  ⟨rfl, rfl, by decide⟩

/-- Claim C1 counterexample: on an input whose proper prefix is a valid
document but whose whole text is not (the trailing `Z` can belong to no
parse, as the leftover of the unique PEG parse shows), `get_host_dicts`
returns the prefix's records instead of failing. -/
theorem claim_C1_counterexample :
    get_host_dicts "Host a\n  B c\nZ"
      = some [[("Host", Value.str "a"), ("B", Value.str "c")]] ∧
    output ("Host a\n  B c\nZ").data
      = some ([[("Host", Value.str "a"), ("B", Value.str "c")]], ['Z']) :=
  ⟨rfl, rfl⟩

/-- Claim C1 witness: the amended theorem applied at concrete inputs. -/
theorem claim_C1_witness :
    get_host_dicts ("Host " ++ "a" ++ "\n " ++ "B" ++ " " ++ "c") = Option.none ∧
    get_host_dicts "Host\n" = Option.none ∧
    output ("Host a\n  B c\nZ").data
      = some ([[("Host", Value.str "a"), ("B", Value.str "c")]], ['Z']) :=
  claim_C1 "a" "B" "c" (by decide) (by decide)

/-- Claim C2 witness: the digit-valued line `Port 2222` coerces to the
integer 2222 (the theorem applied at a concrete input, then evaluated). -/
theorem claim_C2_witness :
    get_host_dicts ("Host a\n  " ++ "Port" ++ " " ++ "2222" ++ "\n")
      = some [[("Host", Value.str "a"), ("Port", Value.int 2222)]] := by
  have h := claim_C2 "Port" "2222" (by decide) (by decide) (by decide)
  rw [h]
  rfl

/-- Claim C3 counterexample: a header-only block is rejected, not accepted. -/
theorem claim_C3_counterexample : get_host_dicts "Host a\n" = Option.none := rfl

/-- Claim C3 witness: the amended theorem applied at a concrete input. -/
theorem claim_C3_witness :
    get_host_dicts ("Host " ++ "a" ++ "\n") = Option.none ∧
    get_host_dicts ("Host " ++ "a") = Option.none :=
  claim_C3 "a" (by decide)

/-- Claim C4 witness: the theorem applied at a concrete input, evaluated. -/
theorem claim_C4_witness :
    get_host_dicts ("Host a\n  " ++ "K" ++ " " ++ "x" ++ "\n  " ++ "L" ++ " " ++ "y" ++ "\n  "
        ++ "K" ++ " " ++ "z" ++ "\n")
      = some [[("Host", Value.str "a"), ("K", Value.str "z"), ("L", Value.str "y")]] := by
  have h := claim_C4 "K" "L" "x" "y" "z" (by decide) (by decide) (by decide) (by decide)
    (by decide) (by decide) (by decide) (by decide) (by decide)
  rw [h]
  rfl

/-- Claim C5 counterexample: a missing trailing newline does NOT always
parse identically.  A single body line without its newline fails entirely
(`line+` finds no newline-terminated line), and a digit-valued trailer
parses as the string "22" without the newline but as the integer 22 with
it. -/
theorem claim_C5_counterexample :
    get_host_dicts "Host a\n  B c" = Option.none ∧
    get_host_dicts "Host a\n  B c\n"
      = some [[("Host", Value.str "a"), ("B", Value.str "c")]] ∧
    get_host_dicts "Host a\n  B c\n  Port 22"
      = some [[("Host", Value.str "a"), ("B", Value.str "c"), ("Port", Value.str "22")]] ∧
    get_host_dicts "Host a\n  B c\n  Port 22\n"
      = some [[("Host", Value.str "a"), ("B", Value.str "c"), ("Port", Value.int 22)]] ∧
    Value.str "22" ≠ Value.int 22 :=
  ⟨rfl, rfl, rfl, rfl, by decide⟩

/-- Claim C5 witness: the amended theorem applied at a concrete input. -/
theorem claim_C5_witness :
    get_host_dicts ("Host " ++ "a" ++ "\n" ++ renderLinesStr [("B", "c")]
        ++ "  " ++ "K" ++ " " ++ "v")
      = get_host_dicts ("Host " ++ "a" ++ "\n" ++ renderLinesStr [("B", "c")]
        ++ "  " ++ "K" ++ " " ++ "v" ++ "\n") :=
  claim_C5 "a" "K" "v" [("B", "c")] (by decide) (by decide) (by decide) (by decide)
    (by decide) (by decide)

/-- Claim C8 counterexample: with two spaces between key and value, the
field's value keeps the second space (`" v"`), it is not the text `"v"`
after the whole whitespace run. -/
theorem claim_C8_counterexample :
    get_host_dicts "Host a\n  K  v\n"
      = some [[("Host", Value.str "a"), ("K", Value.str " v")]] ∧
    (" v" : String) ≠ "v" :=
  ⟨rfl, by decide⟩

/-- Claim C8 witness: the amended theorem applied at a concrete input,
evaluated. -/
theorem claim_C8_witness :
    get_host_dicts ("Host a\n  " ++ "K" ++ String.mk [' ', ' '] ++ "v" ++ "\n")
      = some [[("Host", Value.str "a"), ("K", Value.str " v")]] := by
  have h := claim_C8 "K" "v" [' ', ' '] (by decide) (by decide) (by decide) (by decide)
    (by decide) (by decide) (by decide)
  rw [h]
  rfl

end Vagrant
